import Mathlib

/-!
# Macro expansion in `gridsome.server.js`

A shallow embedding of the macro engine of `gridsome.server.js`
(`matchMacro`, `matchArgument`, `parseArgs`, `hasSidebar`, `runMacros`) and of
the two file filters of the ingestion step, with the properties of the
specification stated and settled over it.

JavaScript strings are modelled as lists of characters.  None of the regular
expressions of the file carries the `u` or `i` flag, and each of their
character classes is either a set of ASCII characters or the complement of a
single ASCII character, so matching over code points and matching over UTF-16
code units select the same substrings.
-/

namespace Gridsome

/-- A JavaScript string, as the list of its characters. -/
abbrev Str := List Char

/-! ## Character classes -/

/-- The character of a double quote. -/
def dquote : Char := Char.ofNat 34

/-- The character of a single quote. -/
def squote : Char := Char.ofNat 39

/-- The character of a backtick. -/
def backtick : Char := Char.ofNat 96

/-- The class `\d` (no `u` flag): the ASCII digits. -/
def isDigitChar (c : Char) : Bool := c.isDigit

/-- The class `\w` (no `u`, no `i` flag): ASCII letters, digits and underscore. -/
def isWordChar (c : Char) : Bool := c.isAlphanum || c == '_'

/-! ## JavaScript values that occur as macro arguments -/

/-- The Number values `parseInt` can return on a non-empty string of decimal
digits: a non-negative integer that a double represents exactly, or
`Infinity`. -/
inductive JSNumber where
  | finite (n : Nat)
  | posInf
  deriving DecidableEq, Repr

/-- The Number value of a non-negative mathematical integer (the conversion
written 𝔽 in ECMAScript): the nearest double, ties to the even significand,
`Infinity` once the rounded value reaches `2 ^ 1024`, that is once its binary
logarithm reaches 1024.  Below `2 ^ 53` every integer is a double. -/
def toNumber (n : Nat) : JSNumber :=
  if n < 2 ^ 53 then JSNumber.finite n
  else
    let e := Nat.log2 n - 52
    let q := n / 2 ^ e
    let r := n % 2 ^ e
    let half := 2 ^ (e - 1)
    let q1 := if half < r ∨ (r = half ∧ q % 2 = 1) then q + 1 else q
    let v := q1 * 2 ^ e
    if 1024 ≤ Nat.log2 v then JSNumber.posInf else JSNumber.finite v

/-- The value of one decimal digit. -/
def digitValue (c : Char) : Nat := c.toNat - 48

/-- The mathematical integer a string of decimal digits denotes in base 10. -/
def decimalValue (ds : Str) : Nat :=
  ds.foldl (fun acc c => 10 * acc + digitValue c) 0

/-- `parseInt(num)` for the strings the third capture group can hold, which are
non-empty runs of decimal digits: no white space, sign or `0x` prefix is there
to strip, the radix is 10 and the whole string is the digit prefix, so the
result is the Number value of its base-10 integer.  (Past twenty significant
digits ECMAScript lets an engine approximate the integer first; the rounding
modelled is the exact one, as V8 performs it.) -/
def parseInt (num : Str) : JSNumber := toNumber (decimalValue num)

/-- The decimal digits of a natural number. -/
def natDigits (n : Nat) : Str := Nat.toDigits 10 n

/-- The digits `s` of Number::toString for the exponent `e`, if there are any:
a multiple `s * 10 ^ e` whose Number value is `x`.  Of all such multiples the
one nearest to `x` is wanted, which is the multiple just below `x` or the one
just above; at equal distance the even `s` is taken. -/
def shortestAt (x e : Nat) : Option Nat :=
  let lo := x / 10 ^ e
  let hi := lo + 1
  let okLo := decide (1 ≤ lo) && decide (toNumber (lo * 10 ^ e) = JSNumber.finite x)
  let okHi := decide (toNumber (hi * 10 ^ e) = JSNumber.finite x)
  if okLo && okHi then
    if x - lo * 10 ^ e < hi * 10 ^ e - x then some lo
    else if hi * 10 ^ e - x < x - lo * 10 ^ e then some hi
    else if lo % 2 = 0 then some lo
    else some hi
  else if okLo then some lo
  else if okHi then some hi
  else none

/-- The digits `s` and the exponent `e` of Number::toString for a positive
integer `x`: the fewest digits come with the largest exponent, so the exponents
are tried from the largest one down; with exponent 0 the digits are those of
`x` itself. -/
def shortestFrom (x : Nat) : Nat → Nat × Nat
  | 0 => (x, 0)
  | e + 1 =>
    match shortestAt x (e + 1) with
    | some s => (s, e + 1)
    | none => shortestFrom x e

/-- The operation Number::toString of ECMAScript in radix 10, on the Number
values of `JSNumber`: the shortest digits that convert back to the same Number,
followed by zeros up to 21 digits in all, in exponential writing beyond. -/
def numberToString : JSNumber → Str
  | JSNumber.posInf => "Infinity".toList
  | JSNumber.finite 0 => ['0']
  | JSNumber.finite (x + 1) =>
    let r := shortestFrom (x + 1) (natDigits (x + 1)).length
    let ds := natDigits r.1
    let n := ds.length + r.2
    if n ≤ 21 then ds ++ List.replicate r.2 '0'
    else
      match ds with
      | [] => []
      | [d] => d :: 'e' :: '+' :: natDigits (n - 1)
      | d :: rest => d :: '.' :: (rest ++ 'e' :: '+' :: natDigits (n - 1))

/-- A value handed to a macro function. -/
inductive Arg where
  | str (s : Str)
  | num (n : JSNumber)
  | undefined
  deriving DecidableEq, Repr

/-! ## `matchArgument` -/

/-- One match of `matchArgument`: the matched text and the four capture groups
(`none` for a group that took no part in the match, which JavaScript reports as
`undefined`). -/
structure ArgMatch where
  text : Str
  str1 : Option Str
  str2 : Option Str
  num : Option Str
  emptyStr : Option Str
  deriving DecidableEq, Repr

/-- The sub-pattern `q([^q]+)q` at the head of `s`, for a quote character `q`:
the interior.  The greedy `[^q]+` takes the whole run of characters other than
`q`; the run must be non-empty and a `q` must follow it.  Giving characters
back cannot help, since the character after a shorter run is not `q`. -/
def quotedAt (q : Char) (s : Str) : Option Str :=
  match s with
  | [] => none
  | c :: t =>
    if c = q then
      match t.takeWhile (fun x => x != q), t.dropWhile (fun x => x != q) with
      | _ :: _, _ :: _ => some (t.takeWhile (fun x => x != q))
      | _, _ => none
    else none

/-- The regular expression `matchArgument` tried at the head of `s`: the four
alternatives in their order, the first that matches wins. -/
def matchArgumentAt (s : Str) : Option ArgMatch :=
  match quotedAt dquote s with
  | some body =>
    some { text := dquote :: body ++ [dquote], str1 := some body, str2 := none,
           num := none, emptyStr := none }
  | none =>
    match quotedAt squote s with
    | some body =>
      some { text := squote :: body ++ [squote], str1 := none, str2 := some body,
             num := none, emptyStr := none }
    | none =>
      match s.takeWhile isDigitChar with
      | d :: ds =>
        some { text := d :: ds, str1 := none, str2 := none, num := some (d :: ds),
               emptyStr := none }
      | [] =>
        match s with
        | a :: b :: _ =>
          if (a = squote ∧ b = squote) ∨ (a = dquote ∧ b = dquote) then
            some { text := [a, b], str1 := none, str2 := none, num := none,
                   emptyStr := some [a, b] }
          else none
        | _ => none

/-- The matches of a global regular expression over a string, as `matchAll`
lists them: `skip` counts the characters still covered by the previous match
(the search resumes at its end), and at a free position the expression is tried
there, moving one character on when it fails.  Every match of the expressions
used here is non-empty. -/
def scanMatches {μ : Type} (matchAt : Str → Option μ) (len : μ → Nat) :
    Nat → Str → List μ
  | _, [] => []
  | k + 1, _ :: t => scanMatches matchAt len k t
  | 0, c :: t =>
    match matchAt (c :: t) with
    | some m => m :: scanMatches matchAt len (len m - 1) t
    | none => scanMatches matchAt len 0 t

/-- The list `[...argumentString.matchAll(matchArgument)]`. -/
def matchAllArguments (argumentString : Str) : List ArgMatch :=
  scanMatches matchArgumentAt (fun m => m.text.length) 0 argumentString

/-- JavaScript truthiness of a capture group: a string that is not empty. -/
def truthy (g : Option Str) : Bool :=
  match g with
  | some (_ :: _) => true
  | _ => false

/-- The branch of the callback of `parseArgs` that returns. -/
inductive Branch where
  | quotedStr
  | number
  | emptyStr
  | fallthrough
  deriving DecidableEq, Repr

/-- The value `a || b` for two capture groups known to be strings or undefined. -/
def orElseStr (a b : Option Str) : Option Str :=
  if truthy a then a else b

/-- The callback of `parseArgs` on one match: the branch it returns from and
the value it returns. -/
def argOfMatch (m : ArgMatch) : Branch × Arg :=
  if truthy m.str1 || truthy m.str2 then
    match orElseStr m.str1 m.str2 with
    | some s => (Branch.quotedStr, Arg.str s)
    | none => (Branch.quotedStr, Arg.undefined)
  else if truthy m.num then
    match m.num with
    | some d => (Branch.number, Arg.num (parseInt d))
    | none => (Branch.number, Arg.undefined)
  else if truthy m.emptyStr then
    (Branch.emptyStr, Arg.str [])
  else (Branch.fallthrough, Arg.undefined)

/-- The function `parseArgs`. -/
def parseArgs (argumentString : Str) : List Arg :=
  (matchAllArguments argumentString).map (fun m => (argOfMatch m).2)

/-- The branches taken by `parseArgs`, one per element of its result. -/
def parseArgsBranches (argumentString : Str) : List Branch :=
  (matchAllArguments argumentString).map (fun m => (argOfMatch m).1)

/-! ## `matchMacro` -/

/-- One match of `matchMacro`: the matched text and the two capture groups, as
`runMacros` destructures it into `[match, functionName, args]`. -/
structure MacroMatch where
  text : Str
  functionName : Str
  args : Option Str
  deriving DecidableEq, Repr

/-- The characters of `s` after the literal `lit`, when `s` starts with it. -/
def dropLit : Str → Str → Option Str
  | [], s => some s
  | _ :: _, [] => none
  | p :: ps, c :: s => if c = p then dropLit ps s else none

/-- The text of `)}}`. -/
def closeText : Str := [')', '}', '}']

/-- The capture of `([^{]+)` followed by `\)\}\}`, over the run of characters
other than `{` that follows the opening parenthesis: the greedy `[^{]+` first
takes the whole run and gives characters back one at a time until `)}}`
follows, so the capture is the longest non-empty prefix of the run that `)}}`
follows.  (The three closing characters are themselves not `{`, so they lie in
the run.) -/
def lastClose : Str → Option Str
  | [] => none
  | c :: t =>
    match lastClose t with
    | some a => some (c :: a)
    | none => if closeText.isPrefixOf t then some [c] else none

/-- The regular expression `matchMacro` tried at the head of `s`.  After `{{`
the greedy `\w+` takes the whole run of word characters (a shorter name would
be followed by a word character, which is neither `(` nor `}`).  When `(`
follows, the optional group is entered; if it cannot be completed the match
fails, since skipping the group would need `}}` where `(` stands. -/
def matchMacroAt (s : Str) : Option MacroMatch :=
  match dropLit ['{', '{'] s with
  | none => none
  | some t =>
    match t.takeWhile isWordChar with
    | [] => none
    | n :: ns =>
      match dropLit ['('] (t.dropWhile isWordChar) with
      | some u =>
        match lastClose (u.takeWhile (fun x => x != '{')) with
        | some a =>
          some { text := '{' :: '{' :: (n :: ns) ++ '(' :: a ++ closeText,
                 functionName := n :: ns, args := some a }
        | none => none
      | none =>
        match dropLit ['}', '}'] (t.dropWhile isWordChar) with
        | some _ =>
          some { text := '{' :: '{' :: (n :: ns) ++ ['}', '}'],
                 functionName := n :: ns, args := none }
        | none => none

/-- The list `[...content.matchAll(matchMacro)]`. -/
def matchAllMacros (content : Str) : List MacroMatch :=
  scanMatches matchMacroAt (fun m => m.text.length) 0 content

/-! ## `String.prototype.replace` with a string pattern -/

/-- The text before and after the first occurrence of `pat` in a string
(`none` when `pat` does not occur). -/
def splitFirst (pat : Str) : Str → Option (Str × Str)
  | [] => if pat = [] then some ([], []) else none
  | c :: t =>
    if pat.isPrefixOf (c :: t) then some ([], (c :: t).drop pat.length)
    else (splitFirst pat t).map (fun r => (c :: r.1, r.2))

/-- The abstract operation GetSubstitution of ECMAScript for a string pattern
(no capture groups): in the replacement text `$$` stands for `$`, `$&` for the
matched text, `$` with a backtick for the text before the match, `$` with a
single quote for the text after it; every other character, a `$` before a
digit or `<` included, stands for itself. -/
def getSubstitution (matched before after : Str) : Str → Str
  | [] => []
  | [c] => [c]
  | c :: d :: t =>
    if c = '$' then
      if d = '$' then '$' :: getSubstitution matched before after t
      else if d = '&' then matched ++ getSubstitution matched before after t
      else if d = backtick then before ++ getSubstitution matched before after t
      else if d = squote then after ++ getSubstitution matched before after t
      else c :: getSubstitution matched before after (d :: t)
    else c :: getSubstitution matched before after (d :: t)

/-- The call `s.replace(pat, repl)` for strings `pat` and `repl`: the first
occurrence of `pat` only is replaced, by the substitution of `repl`. -/
def replace (s pat repl : Str) : Str :=
  match splitFirst pat s with
  | none => s
  | some (before, after) => before ++ getSubstitution pat before after repl ++ after

/-! ## `hasSidebar` and `runMacros` -/

/-- The way a call completes: it returns a value, or it throws a TypeError, the
only exception the built-in operations used here raise; nothing in the file
catches it. -/
inductive Completion (α : Type) where
  | normal (value : α)
  | throwTypeError
  deriving DecidableEq, Repr

/-- The macro registry `kumaMacros` (the module `./kuma`), as the own
properties of the exported object: the macro function under each name it
defines, `none` for a name it does not define.  Every entry is a function
that takes the argument list and returns a string, as the data model of the
specification has it.  The object is taken to be an ordinary object, as a
module exports it, so its prototype is `Object.prototype`, and its own
properties to be enumerable data properties. -/
abbrev Registry := Str → Option (List Arg → Str)

/-- The property names of `Object.prototype` (ECMAScript, with Annex B).  Each
holds a function, except `__proto__`, an accessor that yields the prototype
object; all of these values are truthy. -/
def objectPrototypeKeys : List Str :=
  ["constructor", "hasOwnProperty", "isPrototypeOf", "propertyIsEnumerable",
   "toLocaleString", "toString", "valueOf", "__proto__", "__defineGetter__",
   "__defineSetter__", "__lookupGetter__", "__lookupSetter__"].map String.toList

/-- What the property read `kumaMacros[functionName]` finds: an own property
first, then the members the object inherits from `Object.prototype`. -/
inductive Member where
  | absent
  | ownFunction (f : List Arg → Str)
  | builtin (key : Str)
  | prototypeObject

/-- The property read `kumaMacros[functionName]`.  An own property is a macro
function; `__proto__` yields the prototype object, which is truthy and is no
function; the other names of `Object.prototype` yield its built-in functions;
any other name yields `undefined`. -/
def readMember (kumaMacros : Registry) (name : Str) : Member :=
  match kumaMacros name with
  | some f => Member.ownFunction f
  | none =>
    if name = "__proto__".toList then Member.prototypeObject
    else if name ∈ objectPrototypeKeys then Member.builtin name
    else Member.absent

/-- The values a call of a member of the registry can return. -/
inductive JSValue where
  | str (s : Str)
  | bool (b : Bool)
  | undefined
  | registryObject
  | plainObject
  | stringObject (s : Str)
  | numberObject (n : JSNumber)
  | protoAccessor
  deriving DecidableEq, Repr

/-- The operation ToPropertyKey on the first argument of a call. -/
def toPropertyKey (first : Option Arg) : Str :=
  match first with
  | some (Arg.str s) => s
  | some (Arg.num n) => numberToString n
  | _ => "undefined".toList

/-- The string of the registry object: its method `toString` called without
arguments, which is the macro of that name if the registry defines one and
`Object.prototype.toString` otherwise. -/
def registryToString (kumaMacros : Registry) : Str :=
  match kumaMacros "toString".toList with
  | some f => f []
  | none => "[object Object]".toList

/-- The call of a built-in function of `Object.prototype`, found under `key`,
with the registry object as `this`:
`toString` gives `[object Object]`; `toLocaleString` invokes the method
`toString` of the object; `valueOf` returns the object; `constructor` is
`Object`, which wraps a string or a number and makes a new object otherwise;
`hasOwnProperty` and `propertyIsEnumerable` tell whether the key of the first
argument is an own property; `isPrototypeOf` is false of a primitive;
`__lookupGetter__` and `__lookupSetter__` return the accessor function of
`__proto__` when asked for that key on an object without such an own property,
and `undefined` otherwise; `__defineGetter__` and `__defineSetter__` throw,
their second argument being no function. -/
def callBuiltin (kumaMacros : Registry) (key : Str) (args : List Arg) : Completion JSValue :=
  if key = "toString".toList then Completion.normal (JSValue.str "[object Object]".toList)
  else if key = "toLocaleString".toList then
    Completion.normal (JSValue.str (registryToString kumaMacros))
  else if key = "valueOf".toList then Completion.normal JSValue.registryObject
  else if key = "constructor".toList then
    match args.head? with
    | some (Arg.str s) => Completion.normal (JSValue.stringObject s)
    | some (Arg.num n) => Completion.normal (JSValue.numberObject n)
    | _ => Completion.normal JSValue.plainObject
  else if key = "hasOwnProperty".toList ∨ key = "propertyIsEnumerable".toList then
    Completion.normal (JSValue.bool (kumaMacros (toPropertyKey args.head?)).isSome)
  else if key = "isPrototypeOf".toList then Completion.normal (JSValue.bool false)
  else if key = "__lookupGetter__".toList ∨ key = "__lookupSetter__".toList then
    if toPropertyKey args.head? = "__proto__".toList ∧
        (kumaMacros "__proto__".toList).isNone = true then
      Completion.normal JSValue.protoAccessor
    else Completion.normal JSValue.undefined
  else Completion.throwTypeError

/-- The operation ToString on a value that is no function, as
`String.prototype.replace` applies it to its second argument. -/
def stringOfValue (kumaMacros : Registry) (v : JSValue) : Str :=
  match v with
  | JSValue.str s => s
  | JSValue.bool true => "true".toList
  | JSValue.bool false => "false".toList
  | JSValue.undefined => "undefined".toList
  | JSValue.registryObject => registryToString kumaMacros
  | JSValue.plainObject => "[object Object]".toList
  | JSValue.stringObject s => s
  | JSValue.numberObject n => numberToString n
  | JSValue.protoAccessor => []

/-- The call `s.replace(pat, v)` for a string `pat` and a value `v`.  A value
that is no function is turned into a string and used as the replacement text.
The accessor function of `__proto__` is called as a replacer if `pat` occurs,
without a `this` value, and throws. -/
def replaceValue (kumaMacros : Registry) (s pat : Str) (v : JSValue) : Completion Str :=
  match v with
  | JSValue.protoAccessor =>
    match splitFirst pat s with
    | none => Completion.normal s
    | some _ => Completion.throwTypeError
  | _ => Completion.normal (replace s pat (stringOfValue kumaMacros v))

/-- The values the property read `functionNames[name]` can produce besides
`undefined`: one of the strings of the object literal, or a property inherited
from `Object.prototype`, the prototype of every object literal. -/
inductive SidebarValue where
  | tag (s : Str)
  | inherited (key : Str)
  deriving DecidableEq, Repr

/-- The own properties of the object literal `functionNames`. -/
def functionNames : List (Str × Str) :=
  [("CSSRef".toList, "CSSRef".toList), ("JsSidebar".toList, "JsSidebar".toList),
   ("jsSidebar".toList, "JsSidebar".toList), ("JSRef".toList, "JSRef".toList)]

/-- The function `hasSidebar`, applied to the array `[functionName, args]`, of
which it reads the first element: the property read `functionNames[name]`,
that finds an own property first and then walks the prototype chain. -/
def hasSidebar (expression : Str × Option Str) : Option SidebarValue :=
  match functionNames.lookup expression.1 with
  | some t => some (SidebarValue.tag t)
  | none =>
    if expression.1 ∈ objectPrototypeKeys then some (SidebarValue.inherited expression.1)
    else none

/-- JavaScript truthiness of the result of `hasSidebar`. -/
def sidebarTruthy (v : Option SidebarValue) : Bool :=
  match v with
  | some (SidebarValue.tag (_ :: _)) => true
  | some (SidebarValue.inherited _) => true
  | _ => false

/-- The object `data` of `runMacros`: its only property, absent at first. -/
structure Data where
  hasSidebar : Option SidebarValue
  deriving DecidableEq, Repr

/-- The arguments of the call of a macro: those of `parseArgs(args)` when
`args` is truthy, none otherwise. -/
def macroArguments (m : MacroMatch) : List Arg :=
  if truthy m.args then parseArgs (m.args.getD []) else []

/-- The value of `result` after the `if (kumaMacros[functionName])` statement
of one step of `runMacros` (lines 84 to 91): the matched text when the read is
falsy, what the call returns otherwise; the call of a member that is no
function throws. -/
def macroResult (kumaMacros : Registry) (m : MacroMatch) : Completion JSValue :=
  match readMember kumaMacros m.functionName with
  | Member.absent => Completion.normal (JSValue.str m.text)
  | Member.ownFunction f => Completion.normal (JSValue.str (f (macroArguments m)))
  | Member.builtin key => callBuiltin kumaMacros key (macroArguments m)
  | Member.prototypeObject => Completion.throwTypeError

/-- The value of `resultContent` after lines 84 to 95 of one step. -/
def stepContent (kumaMacros : Registry) (resultContent : Str) (m : MacroMatch) :
    Completion Str :=
  match macroResult kumaMacros m with
  | Completion.throwTypeError => Completion.throwTypeError
  | Completion.normal result =>
    if result ≠ JSValue.str m.text then replaceValue kumaMacros resultContent m.text result
    else Completion.normal resultContent

/-- The object `data` after lines 97 to 101 of one step. -/
def stepData (data : Data) (m : MacroMatch) : Data :=
  if sidebarTruthy (hasSidebar (m.functionName, m.args)) then
    { hasSidebar := hasSidebar (m.functionName, m.args) }
  else data

/-- One turn of the callback of `recognizedMacros.map` in `runMacros`, on the
state made of `resultContent` and `data`. -/
def macroStep (kumaMacros : Registry) (state : Str × Data) (m : MacroMatch) :
    Completion (Str × Data) :=
  match stepContent kumaMacros state.1 m with
  | Completion.throwTypeError => Completion.throwTypeError
  | Completion.normal resultContent => Completion.normal (resultContent, stepData state.2 m)

/-- The turns of the callback over the matches in their order; a turn that
throws ends the run. -/
def runSteps (kumaMacros : Registry) : List MacroMatch → Str × Data → Completion (Str × Data)
  | [], state => Completion.normal state
  | m :: rest, state =>
    match macroStep kumaMacros state m with
    | Completion.throwTypeError => Completion.throwTypeError
    | Completion.normal next => runSteps kumaMacros rest next

/-- The object `runMacros` returns. -/
structure Expanded where
  content : Str
  data : Data
  deriving DecidableEq, Repr

/-- The function `runMacros`. -/
def runMacros (kumaMacros : Registry) (content : Str) : Completion Expanded :=
  match runSteps kumaMacros (matchAllMacros content) (content, { hasSidebar := none }) with
  | Completion.throwTypeError => Completion.throwTypeError
  | Completion.normal final => Completion.normal { content := final.1, data := final.2 }

/-! ## The file filters of the ingestion step -/

/-- The test `/lit/.test(path)` for a regular expression that is one literal
text, not anchored: whether `lit` occurs somewhere in `path`. -/
def testLiteral (lit : Str) : Str → Bool
  | [] => lit.isEmpty
  | c :: t => lit.isPrefixOf (c :: t) || testLiteral lit t

/-- The paths `htmlPages` is mapped over: the two filters in their order. -/
def htmlPages (mdnContentFilenames : List Str) : List Str :=
  (mdnContentFilenames.filter (fun path => testLiteral ".html".toList path)).filter
    (fun path => !testLiteral "(".toList path)

/-- The paths `mdPages` is mapped over: the two filters in their order. -/
def mdPages (mdnContentFilenames : List Str) : List Str :=
  (mdnContentFilenames.filter (fun path => testLiteral ".md".toList path)).filter
    (fun path => !testLiteral "(".toList path)

/-! ## Inputs named by the specification -/

/-- The argument string made of each string of a list wrapped in double quotes,
the wrapped strings joined by commas. -/
def joinQuoted : List Str → Str
  | [] => []
  | [s] => dquote :: s ++ [dquote]
  | s :: s2 :: rest => dquote :: s ++ dquote :: ',' :: joinQuoted (s2 :: rest)

/-- The argument string made of `x` in single quotes, the digits `d` and an
empty pair of single quotes, separated by a comma and a blank. -/
def quotedNumberEmpty (x d : Str) : Str :=
  squote :: x ++ squote :: ',' :: ' ' :: (d ++ [',', ' ', squote, squote])

/-- Whether a path has the extension `ext`, that is whether it ends with it. -/
def hasExtension (ext path : Str) : Bool := ext.isSuffixOf path

/-- Whether a path contains a parenthesis character, opening or closing. -/
def hasParenthesis (path : Str) : Bool := path.contains '(' || path.contains ')'

/-- The text of an invocation of the macro `name`: without parentheses when
there is no argument string, with the argument string in parentheses
otherwise. -/
def invocation (name : Str) (args : Option Str) : Str :=
  match args with
  | none => '{' :: '{' :: name ++ ['}', '}']
  | some a => '{' :: '{' :: name ++ '(' :: a ++ closeText

/-- The registry object with the three macros `A`, which returns `x`, `Echo`,
which returns its first argument if that is a string, and `Money`, which
returns `$$5`. -/
def sampleRegistry : Registry := fun name =>
  if name = "A".toList then some (fun _ => "x".toList)
  else if name = "Echo".toList then
    some (fun args => match args with
      | Arg.str s :: _ => s
      | _ => [])
  else if name = "Money".toList then some (fun _ => "$$5".toList)
  else none


/-! ## Scanning lemmas -/

section Scan

variable {μ : Type} (matchAt : Str → Option μ) (len : μ → Nat)

theorem scanMatches_skip (pre s : Str) :
    scanMatches matchAt len pre.length (pre ++ s) = scanMatches matchAt len 0 s := by
  induction pre with
  | nil => rfl
  | cons c t ih => simpa [scanMatches] using ih

theorem scanMatches_cons_none (c : Char) (t : Str) (h : matchAt (c :: t) = none) :
    scanMatches matchAt len 0 (c :: t) = scanMatches matchAt len 0 t := by
  simp [scanMatches, h]

theorem scanMatches_cons_some (c : Char) (t : Str) (m : μ) (h : matchAt (c :: t) = some m) :
    scanMatches matchAt len 0 (c :: t) = m :: scanMatches matchAt len (len m - 1) t := by
  simp [scanMatches, h]

theorem scanMatches_match (s text rest : Str) (m : μ) (h : matchAt s = some m)
    (hs : s = text ++ rest) (hlen : len m = text.length) (hne : text ≠ []) :
    scanMatches matchAt len 0 s = m :: scanMatches matchAt len 0 rest := by
  cases text with
  | nil => exact absurd rfl hne
  | cons c t =>
    subst hs
    have h2 : matchAt (c :: (t ++ rest)) = some m := h
    have h3 : len m - 1 = t.length := by simp [hlen]
    rw [List.cons_append, scanMatches_cons_some matchAt len c (t ++ rest) m h2, h3,
      scanMatches_skip]

theorem mem_scanMatches (k : Nat) (s : Str) (m : μ) (h : m ∈ scanMatches matchAt len k s) :
    ∃ s1, matchAt s1 = some m := by
  induction s generalizing k with
  | nil => simp [scanMatches] at h
  | cons c t ih =>
    cases k with
    | succ k => exact ih k (by simpa [scanMatches] using h)
    | zero =>
      cases hm : matchAt (c :: t) with
      | none =>
        rw [scanMatches_cons_none matchAt len c t hm] at h
        exact ih 0 h
      | some m1 =>
        simp only [scanMatches, hm, List.mem_cons] at h
        rcases h with h | h
        · exact ⟨c :: t, by rw [hm, h]⟩
        · exact ih _ h

end Scan

/-! ## Lemmas on `matchArgument` -/

theorem quotedAt_eq_some (q : Char) (body rest : Str) (hne : body ≠ []) (hq : q ∉ body) :
    quotedAt q (q :: body ++ q :: rest) = some body := by
  have hall : ∀ a ∈ body, (fun x => x != q) a = true := by
    intro a ha
    have : a ≠ q := fun h => hq (h ▸ ha)
    simpa using this
  have ht : (body ++ q :: rest).takeWhile (fun x => x != q) = body := by
    rw [List.takeWhile_append_of_pos hall]
    simp
  have hd : (body ++ q :: rest).dropWhile (fun x => x != q) = q :: rest := by
    rw [List.dropWhile_append_of_pos hall]
    simp
  cases body with
  | nil => exact absurd rfl hne
  | cons b bs =>
    simp only [quotedAt, List.cons_append, if_true] at *
    rw [ht, hd]

theorem quotedAt_some_ne_nil (q : Char) (s body : Str) (h : quotedAt q s = some body) :
    body ≠ [] := by
  unfold quotedAt at h
  split at h
  · exact absurd h (by simp)
  · split at h
    · split at h
      · rename_i heq _
        injection h with h
        rw [← h, heq]
        simp
      · exact absurd h (by simp)
    · exact absurd h (by simp)

theorem quotedAt_of_ne (q c : Char) (t : Str) (h : c ≠ q) : quotedAt q (c :: t) = none := by
  simp [quotedAt, h]

/-- The shapes a match of `matchArgument` can have. -/
theorem matchArgumentAt_shape (s : Str) (m : ArgMatch) (h : matchArgumentAt s = some m) :
    (∃ body, body ≠ [] ∧
        m = ⟨dquote :: body ++ [dquote], some body, none, none, none⟩) ∨
    (∃ body, body ≠ [] ∧
        m = ⟨squote :: body ++ [squote], none, some body, none, none⟩) ∨
    (∃ d ds, isDigitChar d = true ∧ m = ⟨d :: ds, none, none, some (d :: ds), none⟩) ∨
    m = ⟨[squote, squote], none, none, none, some [squote, squote]⟩ ∨
    m = ⟨[dquote, dquote], none, none, none, some [dquote, dquote]⟩ := by
  unfold matchArgumentAt at h
  split at h
  · rename_i body hb
    injection h with h
    exact Or.inl ⟨body, quotedAt_some_ne_nil _ _ _ hb, h.symm⟩
  · split at h
    · rename_i body hb
      injection h with h
      exact Or.inr (Or.inl ⟨body, quotedAt_some_ne_nil _ _ _ hb, h.symm⟩)
    · split at h
      · rename_i d ds hd
        injection h with h
        have hdig : isDigitChar d = true :=
          List.mem_takeWhile_imp (hd ▸ List.mem_cons_self d ds)
        exact Or.inr (Or.inr (Or.inl ⟨d, ds, hdig, h.symm⟩))
      · split at h
        · split at h
          · rename_i a b _ hab
            injection h with h
            rcases hab with ⟨ha, hb⟩ | ⟨ha, hb⟩
            · subst ha; subst hb
              exact Or.inr (Or.inr (Or.inr (Or.inl h.symm)))
            · subst ha; subst hb
              exact Or.inr (Or.inr (Or.inr (Or.inr h.symm)))
          · exact absurd h (by simp)
        · exact absurd h (by simp)

/-- What the callback of `parseArgs` returns on each shape of match. -/
theorem argOfMatch_shape (s : Str) (m : ArgMatch) (h : matchArgumentAt s = some m) :
    (∃ body, body ≠ [] ∧
        (m.text = dquote :: body ++ [dquote] ∨ m.text = squote :: body ++ [squote]) ∧
        argOfMatch m = (Branch.quotedStr, Arg.str body)) ∨
    (∃ d ds, isDigitChar d = true ∧ m.text = d :: ds ∧
        argOfMatch m = (Branch.number, Arg.num (parseInt (d :: ds)))) ∨
    ((m.text = [squote, squote] ∨ m.text = [dquote, dquote]) ∧ m.str1 = none ∧
        m.str2 = none ∧ m.num = none ∧ m.emptyStr = some m.text ∧
        argOfMatch m = (Branch.emptyStr, Arg.str [])) := by
  rcases matchArgumentAt_shape s m h with ⟨body, hb, rfl⟩ | ⟨body, hb, rfl⟩ |
    ⟨d, ds, hd, rfl⟩ | rfl | rfl
  · refine Or.inl ⟨body, hb, Or.inl rfl, ?_⟩
    cases body with
    | nil => exact absurd rfl hb
    | cons b bs => simp [argOfMatch, truthy, orElseStr]
  · refine Or.inl ⟨body, hb, Or.inr rfl, ?_⟩
    cases body with
    | nil => exact absurd rfl hb
    | cons b bs => simp [argOfMatch, truthy, orElseStr]
  · exact Or.inr (Or.inl ⟨d, ds, hd, rfl, by simp [argOfMatch, truthy]⟩)
  · exact Or.inr (Or.inr ⟨Or.inl rfl, rfl, rfl, rfl, rfl, by simp [argOfMatch, truthy]⟩)
  · exact Or.inr (Or.inr ⟨Or.inr rfl, rfl, rfl, rfl, rfl, by simp [argOfMatch, truthy]⟩)

theorem matchArgumentAt_none_of_plain (c : Char) (t : Str) (h1 : c ≠ dquote) (h2 : c ≠ squote)
    (h3 : isDigitChar c = false) : matchArgumentAt (c :: t) = none := by
  have hd : (c :: t).takeWhile isDigitChar = [] :=
    List.takeWhile_cons_of_neg (by simp [h3])
  unfold matchArgumentAt
  rw [quotedAt_of_ne _ _ _ h1, quotedAt_of_ne _ _ _ h2]
  simp only [hd]
  cases t with
  | nil => rfl
  | cons b t => simp [h1, h2]

theorem matchAllArguments_skip_plain (junk s : Str)
    (h : ∀ c ∈ junk, c ≠ dquote ∧ c ≠ squote ∧ isDigitChar c = false) :
    matchAllArguments (junk ++ s) = matchAllArguments s := by
  induction junk with
  | nil => rfl
  | cons c t ih =>
    have hc := h c (List.mem_cons_self c t)
    have := scanMatches_cons_none matchArgumentAt (fun m => m.text.length) c (t ++ s)
      (matchArgumentAt_none_of_plain c (t ++ s) hc.1 hc.2.1 hc.2.2)
    unfold matchAllArguments at *
    rw [List.cons_append, this]
    exact ih (fun x hx => h x (List.mem_cons_of_mem c hx))

theorem matchArgumentAt_dquoted (body rest : Str) (hne : body ≠ []) (hq : dquote ∉ body) :
    matchArgumentAt (dquote :: body ++ dquote :: rest)
      = some ⟨dquote :: body ++ [dquote], some body, none, none, none⟩ := by
  unfold matchArgumentAt
  rw [quotedAt_eq_some dquote body rest hne hq]

theorem matchArgumentAt_squoted (body rest : Str) (hne : body ≠ []) (hq : squote ∉ body) :
    matchArgumentAt (squote :: body ++ squote :: rest)
      = some ⟨squote :: body ++ [squote], none, some body, none, none⟩ := by
  have h1 : quotedAt dquote (squote :: body ++ squote :: rest) = none :=
    quotedAt_of_ne _ _ _ (by decide)
  unfold matchArgumentAt
  rw [h1, quotedAt_eq_some squote body rest hne hq]

theorem matchArgumentAt_digits (d rest : Str) (hne : d ≠ [])
    (hd : ∀ c ∈ d, isDigitChar c = true) (hr : ∀ c, rest.head? = some c → isDigitChar c = false) :
    matchArgumentAt (d ++ rest) = some ⟨d, none, none, some d, none⟩ := by
  have ht : (d ++ rest).takeWhile isDigitChar = d := by
    rw [List.takeWhile_append_of_pos hd]
    cases rest with
    | nil => simp
    | cons r rs =>
      have := hr r rfl
      simp [this]
  cases d with
  | nil => exact absurd rfl hne
  | cons d0 ds =>
    have h0 := hd d0 (List.mem_cons_self d0 ds)
    have hsq : d0 ≠ squote := by
      intro hc; rw [hc] at h0; exact absurd h0 (by decide)
    have hdq : d0 ≠ dquote := by
      intro hc; rw [hc] at h0; exact absurd h0 (by decide)
    unfold matchArgumentAt
    rw [List.cons_append, quotedAt_of_ne _ _ _ hdq, quotedAt_of_ne _ _ _ hsq]
    rw [List.cons_append] at ht
    simp only [ht]

theorem matchAllArguments_dquoted (body rest : Str) (hne : body ≠ []) (hq : dquote ∉ body) :
    matchAllArguments (dquote :: body ++ dquote :: rest)
      = ⟨dquote :: body ++ [dquote], some body, none, none, none⟩ :: matchAllArguments rest := by
  unfold matchAllArguments
  exact scanMatches_match matchArgumentAt (fun m => m.text.length) _ (dquote :: body ++ [dquote])
    rest _ (matchArgumentAt_dquoted body rest hne hq) (by simp) rfl (by simp)

theorem matchAllArguments_squoted (body rest : Str) (hne : body ≠ []) (hq : squote ∉ body) :
    matchAllArguments (squote :: body ++ squote :: rest)
      = ⟨squote :: body ++ [squote], none, some body, none, none⟩ :: matchAllArguments rest := by
  unfold matchAllArguments
  exact scanMatches_match matchArgumentAt (fun m => m.text.length) _ (squote :: body ++ [squote])
    rest _ (matchArgumentAt_squoted body rest hne hq) (by simp) rfl (by simp)

theorem matchAllArguments_digits (d rest : Str) (hne : d ≠ [])
    (hd : ∀ c ∈ d, isDigitChar c = true) (hr : ∀ c, rest.head? = some c → isDigitChar c = false) :
    matchAllArguments (d ++ rest) = ⟨d, none, none, some d, none⟩ :: matchAllArguments rest := by
  unfold matchAllArguments
  exact scanMatches_match matchArgumentAt (fun m => m.text.length) _ d rest _
    (matchArgumentAt_digits d rest hne hd hr) rfl rfl hne

theorem argOfMatch_quoted1 (text body : Str) (hne : body ≠ []) :
    argOfMatch ⟨text, some body, none, none, none⟩ = (Branch.quotedStr, Arg.str body) := by
  cases body with
  | nil => exact absurd rfl hne
  | cons b bs => simp [argOfMatch, truthy, orElseStr]

theorem argOfMatch_quoted2 (text body : Str) (hne : body ≠ []) :
    argOfMatch ⟨text, none, some body, none, none⟩ = (Branch.quotedStr, Arg.str body) := by
  cases body with
  | nil => exact absurd rfl hne
  | cons b bs => simp [argOfMatch, truthy, orElseStr]

theorem argOfMatch_number (text d : Str) (hne : d ≠ []) :
    argOfMatch ⟨text, none, none, some d, none⟩ = (Branch.number, Arg.num (parseInt d)) := by
  cases d with
  | nil => exact absurd rfl hne
  | cons b bs => simp [argOfMatch, truthy]

theorem log2_eq_of_bounds {n k : Nat} (h1 : 2 ^ k ≤ n) (h2 : n < 2 ^ (k + 1)) :
    Nat.log2 n = k := by
  have hn : n ≠ 0 := by
    intro h
    subst h
    have := Nat.two_pow_pos k
    omega
  have hlt : Nat.log2 n < k + 1 := (Nat.log2_lt hn).2 h2
  have hle : ¬ Nat.log2 n < k := by
    intro h
    have := (Nat.log2_lt hn).1 h
    omega
  omega

theorem toNumber_of_le (n : Nat) (h : n ≤ 2 ^ 53) : toNumber n = JSNumber.finite n := by
  rcases Nat.lt_or_ge n (2 ^ 53) with hlt | hge
  · unfold toNumber
    rw [if_pos hlt]
  · have hn : n = 9007199254740992 := by
      have : (2 : Nat) ^ 53 = 9007199254740992 := by norm_num
      omega
    have hl : Nat.log2 9007199254740992 = 53 := log2_eq_of_bounds (by norm_num) (by norm_num)
    subst hn
    simp [toNumber, hl]

theorem parseInt_rounds : parseInt "9007199254740993".toList = JSNumber.finite 9007199254740992 := by
  have hv : decimalValue "9007199254740993".toList = 9007199254740993 := by decide
  have hl : Nat.log2 9007199254740993 = 53 := log2_eq_of_bounds (by norm_num) (by norm_num)
  have hl2 : Nat.log2 9007199254740992 = 53 := log2_eq_of_bounds (by norm_num) (by norm_num)
  rw [parseInt, hv]
  simp [toNumber, hl, hl2]

theorem parseArgs_quotedNumberEmpty (x d : Str) (hx : x ≠ []) (hq : squote ∉ x) (hd : d ≠ [])
    (hdig : ∀ c ∈ d, isDigitChar c = true) :
    parseArgs (quotedNumberEmpty x d) = [Arg.str x, Arg.num (parseInt d), Arg.str []] := by
  have h1 := matchAllArguments_squoted x (',' :: ' ' :: (d ++ [',', ' ', squote, squote])) hx hq
  have h2 : matchAllArguments (',' :: ' ' :: (d ++ [',', ' ', squote, squote]))
      = matchAllArguments (d ++ [',', ' ', squote, squote]) :=
    matchAllArguments_skip_plain [',', ' '] _ (by decide)
  have h3 := matchAllArguments_digits d [',', ' ', squote, squote] hd hdig
    (by intro c hc; simp at hc; subst hc; decide)
  have h4 : matchAllArguments [',', ' ', squote, squote]
      = [⟨[squote, squote], none, none, none, some [squote, squote]⟩] := by decide
  have h5 : argOfMatch ⟨[squote, squote], none, none, none, some [squote, squote]⟩
      = (Branch.emptyStr, Arg.str []) := by decide
  unfold parseArgs quotedNumberEmpty
  rw [h1, h2, h3, h4]
  simp [argOfMatch_quoted2 _ x hx, argOfMatch_number _ d hd, h5]

/-! ## Lemmas on the file filters -/

theorem testLiteral_iff_infix (lit s : Str) : testLiteral lit s = true ↔ lit <:+: s := by
  induction s with
  | nil => simp [testLiteral]
  | cons c t ih => simp [testLiteral, List.infix_cons_iff, ih]

theorem testLiteral_singleton (a : Char) (s : Str) : testLiteral [a] s = true ↔ a ∈ s := by
  induction s with
  | nil => simp [testLiteral]
  | cons c t ih =>
    simp only [testLiteral, Bool.or_eq_true, ih, List.mem_cons]
    constructor
    · rintro (h | h)
      · left
        have : [a] <+: c :: t := List.isPrefixOf_iff_prefix.1 h
        obtain ⟨r, hr⟩ := this
        simp at hr
        exact hr.1
      · exact Or.inr h
    · rintro (h | h)
      · left
        subst h
        exact List.isPrefixOf_iff_prefix.2 ⟨t, rfl⟩
      · exact Or.inr h

/-! ## Lemmas on `matchMacro` -/

theorem matchMacroAt_none_of_ne (c : Char) (t : Str) (h : c ≠ '{') :
    matchMacroAt (c :: t) = none := by
  simp [matchMacroAt, dropLit, h]

theorem matchAllMacros_skip (pre s : Str) (h : '{' ∉ pre) :
    matchAllMacros (pre ++ s) = matchAllMacros s := by
  induction pre with
  | nil => rfl
  | cons c t ih =>
    have hc : c ≠ '{' := fun hc => h (hc ▸ List.mem_cons_self c t)
    have := scanMatches_cons_none matchMacroAt (fun m => m.text.length) c (t ++ s)
      (matchMacroAt_none_of_ne c (t ++ s) hc)
    unfold matchAllMacros at *
    rw [List.cons_append, this]
    exact ih (fun hx => h (List.mem_cons_of_mem c hx))

theorem matchAllMacros_of_no_brace (s : Str) (h : '{' ∉ s) : matchAllMacros s = [] := by
  have := matchAllMacros_skip s [] h
  rw [List.append_nil] at this
  rw [this]
  rfl

theorem lastClose_sound :
    ∀ run a : Str, lastClose run = some a → a ≠ [] ∧ ∃ r, run = a ++ closeText ++ r
  | [], a, h => by simp [lastClose] at h
  | c :: t, a, h => by
    rw [lastClose] at h
    cases hl : lastClose t with
    | some x =>
      rw [hl] at h
      injection h with h
      obtain ⟨_, r, hr⟩ := lastClose_sound t x hl
      refine ⟨by rw [← h]; simp, r, ?_⟩
      rw [← h, hr]
      simp
    | none =>
      rw [hl] at h
      by_cases hp : closeText.isPrefixOf t = true
      · simp only [hp, if_true] at h
        injection h with h
        obtain ⟨r, hr⟩ := List.isPrefixOf_iff_prefix.1 hp
        refine ⟨by rw [← h]; simp, r, ?_⟩
        rw [← h, ← hr]
        simp
      · simp [hp] at h

theorem lastClose_complete :
    ∀ a r : Str, a ≠ [] → ∃ x, lastClose (a ++ closeText ++ r) = some x
  | [], _, h => absurd rfl h
  | [c], r, _ => by
    have hp : closeText.isPrefixOf (closeText ++ r) = true :=
      List.isPrefixOf_iff_prefix.2 ⟨r, rfl⟩
    show ∃ x, lastClose (c :: (closeText ++ r)) = some x
    rw [lastClose]
    cases hl : lastClose (closeText ++ r) with
    | some x => exact ⟨c :: x, rfl⟩
    | none => exact ⟨[c], by simp [hp]⟩
  | c :: d :: t, r, _ => by
    obtain ⟨x, hx⟩ := lastClose_complete (d :: t) r (by simp)
    refine ⟨c :: x, ?_⟩
    show lastClose (c :: (d :: t ++ closeText ++ r)) = some (c :: x)
    rw [lastClose, hx]

theorem isWordChar_brace : ∀ c, isWordChar c = true → c ≠ '{' ∧ c ≠ '}' ∧ c ≠ '(' := by
  intro c h
  refine ⟨?_, ?_, ?_⟩ <;> (intro hc; rw [hc] at h; exact absurd h (by decide))

theorem matchMacroAt_plain (name post : Str) (hne : name ≠ [])
    (hw : ∀ c ∈ name, isWordChar c = true) :
    matchMacroAt ('{' :: '{' :: name ++ '}' :: '}' :: post)
      = some ⟨'{' :: '{' :: name ++ ['}', '}'], name, none⟩ := by
  have ht : (name ++ '}' :: '}' :: post).takeWhile isWordChar = name := by
    rw [List.takeWhile_append_of_pos hw]
    simp [List.takeWhile_cons_of_neg (show ¬ isWordChar '}' = true by decide)]
  have hd : (name ++ '}' :: '}' :: post).dropWhile isWordChar = '}' :: '}' :: post := by
    rw [List.dropWhile_append_of_pos hw]
    exact List.dropWhile_cons_of_neg (show ¬ isWordChar '}' = true by decide)
  cases name with
  | nil => exact absurd rfl hne
  | cons n ns =>
    have h1 : dropLit ['{', '{'] ('{' :: '{' :: (n :: ns) ++ '}' :: '}' :: post)
        = some ((n :: ns) ++ '}' :: '}' :: post) := by simp [dropLit]
    unfold matchMacroAt
    rw [h1]
    simp only [ht, hd]
    simp [dropLit]

theorem matchMacroAt_args (name u : Str) (hne : name ≠ [])
    (hw : ∀ c ∈ name, isWordChar c = true) :
    matchMacroAt ('{' :: '{' :: name ++ '(' :: u)
      = (lastClose (u.takeWhile (fun x => x != '{'))).map
          (fun a => ⟨'{' :: '{' :: name ++ '(' :: a ++ closeText, name, some a⟩) := by
  have ht : (name ++ '(' :: u).takeWhile isWordChar = name := by
    rw [List.takeWhile_append_of_pos hw]
    simp [List.takeWhile_cons_of_neg (show ¬ isWordChar '(' = true by decide)]
  have hd : (name ++ '(' :: u).dropWhile isWordChar = '(' :: u := by
    rw [List.dropWhile_append_of_pos hw]
    exact List.dropWhile_cons_of_neg (show ¬ isWordChar '(' = true by decide)
  cases name with
  | nil => exact absurd rfl hne
  | cons n ns =>
    have h1 : dropLit ['{', '{'] ('{' :: '{' :: (n :: ns) ++ '(' :: u)
        = some ((n :: ns) ++ '(' :: u) := by simp [dropLit]
    unfold matchMacroAt
    rw [h1]
    simp only [ht, hd]
    cases hl : lastClose (u.takeWhile (fun x => x != '{')) <;> simp [dropLit, hl]

theorem dropLit_some : ∀ lit s t : Str, dropLit lit s = some t → s = lit ++ t
  | [], s, t, h => by
    simp [dropLit] at h
    simp [h]
  | _ :: _, [], t, h => by simp [dropLit] at h
  | p :: ps, c :: s, t, h => by
    rw [dropLit] at h
    by_cases hc : c = p
    · rw [if_pos hc] at h
      rw [hc, dropLit_some ps s t h]
      rfl
    · rw [if_neg hc] at h
      exact absurd h (by simp)

/-- The shape of a match of `matchMacro`: the text it covers is a prefix of the input, the name
is a non-empty run of word characters, and the argument string, when there is one, is not
empty and holds no opening brace. -/
theorem matchMacroAt_shape (s : Str) (m : MacroMatch) (h : matchMacroAt s = some m) :
    m.functionName ≠ [] ∧ (∀ c ∈ m.functionName, isWordChar c = true) ∧
      (∃ rest, s = m.text ++ rest) ∧
      ((m.args = none ∧ m.text = '{' :: '{' :: m.functionName ++ ['}', '}']) ∨
        (∃ a, m.args = some a ∧ a ≠ [] ∧ '{' ∉ a ∧
          m.text = '{' :: '{' :: m.functionName ++ '(' :: a ++ closeText)) := by
  unfold matchMacroAt at h
  split at h
  · exact absurd h (by simp)
  · rename_i t ht
    have hs := dropLit_some _ _ _ ht
    have hsplit := List.takeWhile_append_dropWhile isWordChar t
    split at h
    · exact absurd h (by simp)
    · rename_i n ns hn
      have hword : ∀ c ∈ n :: ns, isWordChar c = true := by
        intro c hc
        rw [← hn] at hc
        exact List.mem_takeWhile_imp hc
      split at h
      · rename_i u hu
        have hdw := dropLit_some _ _ _ hu
        split at h
        · rename_i a ha
          injection h with h
          obtain ⟨hane, r, hr⟩ := lastClose_sound _ _ ha
          have hrun := List.takeWhile_append_dropWhile (fun x => x != '{') u
          have hab : '{' ∉ a := by
            intro hmem
            have h1 : '{' ∈ u.takeWhile (fun x => x != '{') := by
              rw [hr]
              exact List.mem_append_left _ (List.mem_append_left _ hmem)
            have := List.mem_takeWhile_imp h1
            simp at this
          subst h
          refine ⟨by simp, hword, ⟨r ++ u.dropWhile (fun x => x != '{'), ?_⟩,
            Or.inr ⟨a, rfl, hane, hab, rfl⟩⟩
          have hu2 : u = a ++ closeText ++ r ++ u.dropWhile (fun x => x != '{') := by
            rw [← hr, hrun]
          have ht2 : t = (n :: ns) ++ (['('] ++ u) := by
            calc t = t.takeWhile isWordChar ++ t.dropWhile isWordChar := hsplit.symm
              _ = (n :: ns) ++ (['('] ++ u) := by rw [hn, hdw]
          generalize u.dropWhile (fun x => x != '{') = d at hu2 ⊢
          rw [hs, ht2, hu2]
          simp
        · exact absurd h (by simp)
      · split at h
        · rename_i rest hrest
          have hdw := dropLit_some _ _ _ hrest
          injection h with h
          subst h
          refine ⟨by simp, hword, ⟨rest, ?_⟩, Or.inl ⟨rfl, rfl⟩⟩
          have ht2 : t = (n :: ns) ++ (['}', '}'] ++ rest) := by
            calc t = t.takeWhile isWordChar ++ t.dropWhile isWordChar := hsplit.symm
              _ = (n :: ns) ++ (['}', '}'] ++ rest) := by rw [hn, hdw]
          rw [hs, ht2]
          simp
        · exact absurd h (by simp)

theorem matchMacroAt_text_ne_nil (s : Str) (m : MacroMatch) (h : matchMacroAt s = some m) :
    m.text ≠ [] := by
  obtain ⟨_, _, _, hsh⟩ := matchMacroAt_shape s m h
  rcases hsh with ⟨_, ht⟩ | ⟨a, _, _, _, ht⟩ <;> rw [ht] <;> simp

theorem matchAllMacros_match (s text rest : Str) (m : MacroMatch)
    (h : matchMacroAt s = some m) (hs : s = text ++ rest) (ht : m.text = text) :
    matchAllMacros s = m :: matchAllMacros rest := by
  unfold matchAllMacros
  exact scanMatches_match matchMacroAt (fun m => m.text.length) s text rest m h hs
    (by simp [ht]) (ht ▸ matchMacroAt_text_ne_nil s m h)

/-- An invocation of a macro between two texts without an opening brace is the one match of
the whole text, and the name it captures is the name of the macro. -/
theorem matchAllMacros_invocation (name pre post : Str) (args : Option Str) (hne : name ≠ [])
    (hw : ∀ c ∈ name, isWordChar c = true) (hpre : '{' ∉ pre) (hpost : '{' ∉ post)
    (hargs : ∀ a, args = some a → a ≠ [] ∧ '{' ∉ a) :
    ∃ m, matchAllMacros (pre ++ invocation name args ++ post) = [m] ∧ m.functionName = name := by
  rw [List.append_assoc, matchAllMacros_skip pre _ hpre]
  cases args with
  | none =>
    refine ⟨⟨'{' :: '{' :: name ++ ['}', '}'], name, none⟩, ?_, rfl⟩
    have hm := matchMacroAt_plain name post hne hw
    simp only [invocation]
    have heq : '{' :: '{' :: name ++ ['}', '}'] ++ post
        = '{' :: '{' :: name ++ '}' :: '}' :: post := by simp
    rw [heq, matchAllMacros_match _ ('{' :: '{' :: name ++ ['}', '}']) post _ hm (by simp) rfl,
      matchAllMacros_of_no_brace post hpost]
  | some a =>
    obtain ⟨ha, hab⟩ := hargs a rfl
    have hu : '{' ∉ a ++ closeText ++ post := by
      intro hm
      rcases List.mem_append.1 hm with h1 | h1
      · rcases List.mem_append.1 h1 with h2 | h2
        · exact hab h2
        · exact absurd h2 (by decide)
      · exact hpost h1
    have htw : (a ++ closeText ++ post).takeWhile (fun x => x != '{') = a ++ closeText ++ post := by
      rw [List.takeWhile_eq_self_iff]
      intro c hc
      have : c ≠ '{' := fun h => hu (h ▸ hc)
      simpa using this
    obtain ⟨x, hx⟩ := lastClose_complete a post ha
    obtain ⟨_, r, hr⟩ := lastClose_sound _ _ hx
    have hm := matchMacroAt_args name (a ++ closeText ++ post) hne hw
    rw [htw, hx] at hm
    have hrb : '{' ∉ r := by
      intro hm2
      apply hu
      rw [hr]
      exact List.mem_append_right _ hm2
    refine ⟨⟨'{' :: '{' :: name ++ '(' :: x ++ closeText, name, some x⟩, ?_, rfl⟩
    simp only [invocation]
    have heq : '{' :: '{' :: name ++ '(' :: a ++ closeText ++ post
        = '{' :: '{' :: name ++ '(' :: (a ++ closeText ++ post) := by simp
    rw [heq, matchAllMacros_match _ ('{' :: '{' :: name ++ '(' :: x ++ closeText) r _ hm
      (by rw [hr]; simp) rfl, matchAllMacros_of_no_brace r hrb]

/-- The text of a match of `matchMacro` matches again wherever it stands, whatever follows
it. -/
theorem matchMacroAt_text_isSome (s : Str) (m : MacroMatch) (h : matchMacroAt s = some m)
    (rest : Str) : ∃ m1, matchMacroAt (m.text ++ rest) = some m1 := by
  obtain ⟨hne, hw, _, hsh⟩ := matchMacroAt_shape s m h
  rcases hsh with ⟨_, ht⟩ | ⟨a, _, hane, hab, ht⟩
  · refine ⟨⟨'{' :: '{' :: m.functionName ++ ['}', '}'], m.functionName, none⟩, ?_⟩
    rw [ht]
    have := matchMacroAt_plain m.functionName rest hne hw
    simpa using this
  · have hall : ∀ c ∈ a ++ closeText, (fun x => x != '{') c = true := by
      intro c hc
      rcases List.mem_append.1 hc with h1 | h1
      · have : c ≠ '{' := fun hc2 => hab (hc2 ▸ h1)
        simpa using this
      · have : c ≠ '{' := by
          intro hc2
          rw [hc2] at h1
          exact absurd h1 (by decide)
        simpa using this
    have htw : (a ++ closeText ++ rest).takeWhile (fun x => x != '{')
        = a ++ closeText ++ rest.takeWhile (fun x => x != '{') :=
      List.takeWhile_append_of_pos hall
    obtain ⟨x, hx⟩ := lastClose_complete a (rest.takeWhile (fun x => x != '{')) hane
    have hm := matchMacroAt_args m.functionName (a ++ closeText ++ rest) hne hw
    rw [htw, hx] at hm
    refine ⟨⟨'{' :: '{' :: m.functionName ++ '(' :: x ++ closeText, m.functionName,
      some x⟩, ?_⟩
    rw [ht]
    simpa using hm

/-- The text of a match of `matchMacro` is two opening braces and a non-empty text without
an opening brace. -/
theorem matchMacroAt_text_form (s : Str) (m : MacroMatch) (h : matchMacroAt s = some m) :
    ∃ w, m.text = '{' :: '{' :: w ∧ w ≠ [] ∧ '{' ∉ w := by
  obtain ⟨hne, hw, _, hsh⟩ := matchMacroAt_shape s m h
  have hfn : '{' ∉ m.functionName := fun hm => (isWordChar_brace _ (hw _ hm)).1 rfl
  rcases hsh with ⟨_, ht⟩ | ⟨a, _, _, hab, ht⟩
  · refine ⟨m.functionName ++ ['}', '}'], by simpa using ht, by simp, ?_⟩
    intro hm
    rcases List.mem_append.1 hm with h1 | h1
    · exact hfn h1
    · exact absurd h1 (by decide)
  · refine ⟨m.functionName ++ '(' :: a ++ closeText, by simpa using ht, by simp, ?_⟩
    intro hm
    rcases List.mem_append.1 hm with h1 | h1
    · rcases List.mem_append.1 h1 with h2 | h2
      · exact hfn h2
      · rcases List.mem_cons.1 h2 with h3 | h3
        · exact absurd h3 (by decide)
        · exact hab h3
    · exact absurd h1 (by decide)

theorem matchMacroAt_nil : matchMacroAt [] = none := rfl

theorem matchAllMacros_nil_none (q : Str) (h : matchAllMacros q = []) :
    ∀ x y, q = x ++ y → matchMacroAt y = none := by
  induction q with
  | nil =>
    intro x y hxy
    have : y = [] := (List.append_eq_nil.1 hxy.symm).2
    rw [this]
    rfl
  | cons c t ih =>
    cases hm : matchMacroAt (c :: t) with
    | some m1 =>
      unfold matchAllMacros at h
      rw [scanMatches_cons_some _ _ c t m1 hm] at h
      exact absurd h (by simp)
    | none =>
      have ht : matchAllMacros t = [] := by
        unfold matchAllMacros at h ⊢
        rwa [scanMatches_cons_none _ _ c t hm] at h
      intro x y hxy
      cases x with
      | nil =>
        rw [List.nil_append] at hxy
        rw [← hxy]
        exact hm
      | cons x0 xs =>
        rw [List.cons_append] at hxy
        injection hxy with _ hxy
        exact ih ht xs y hxy

/-- A content with exactly one match: the match stands after a text in which no position
starts a match, and no match follows it. -/
theorem matchAllMacros_single (content : Str) (m : MacroMatch)
    (h : matchAllMacros content = [m]) :
    ∃ p0 q0, content = p0 ++ m.text ++ q0 ∧ matchMacroAt (m.text ++ q0) = some m ∧
      (∀ x y, p0 = x ++ y → y ≠ [] → matchMacroAt (y ++ m.text ++ q0) = none) ∧
      matchAllMacros q0 = [] := by
  induction content with
  | nil => exact absurd h (by simp [matchAllMacros, scanMatches])
  | cons c t ih =>
    cases hm : matchMacroAt (c :: t) with
    | some m1 =>
      obtain ⟨_, _, ⟨rest, hrest⟩, _⟩ := matchMacroAt_shape _ _ hm
      rw [matchAllMacros_match (c :: t) m1.text rest m1 hm hrest rfl] at h
      injection h with h1 h2
      subst h1
      refine ⟨[], rest, by simpa using hrest, by rw [← hrest]; exact hm, ?_, h2⟩
      intro x y hxy hy
      have : y = [] := (List.append_eq_nil.1 hxy.symm).2
      exact absurd this hy
    | none =>
      have ht : matchAllMacros t = [m] := by
        unfold matchAllMacros at h ⊢
        rwa [scanMatches_cons_none _ _ c t hm] at h
      obtain ⟨p0, q0, hc, hmm, hmin, hq⟩ := ih ht
      refine ⟨c :: p0, q0, by rw [hc]; simp, hmm, ?_, hq⟩
      intro x y hxy hy
      cases x with
      | nil =>
        rw [List.nil_append] at hxy
        rw [← hxy]
        have : c :: p0 ++ m.text ++ q0 = c :: t := by rw [hc]; simp
        rw [this]
        exact hm
      | cons x0 xs =>
        rw [List.cons_append] at hxy
        injection hxy with _ hxy
        exact hmin xs y hxy hy

theorem overlap_shift (w q0 c b : Str) (hw : '{' ∉ w) (hwne : w ≠ []) (hc : c ≠ [])
    (h : '{' :: '{' :: w ++ q0 = c ++ ('{' :: '{' :: w ++ b)) :
    ∃ d, q0 = d ++ ('{' :: '{' :: w ++ b) := by
  cases w with
  | nil => exact absurd rfl hwne
  | cons w0 ws =>
    have hw0 : w0 ≠ '{' := fun hx => hw (hx ▸ List.mem_cons_self w0 ws)
    cases c with
    | nil => exact absurd rfl hc
    | cons x c1 =>
      cases c1 with
      | nil =>
        simp only [List.cons_append, List.nil_append, List.cons.injEq] at h
        exact absurd h.2.2.1 hw0
      | cons y c2 =>
        simp only [List.cons_append, List.cons.injEq] at h
        obtain ⟨_, _, h3⟩ := h
        have h4 : (w0 :: ws) ++ q0 = c2 ++ ('{' :: '{' :: w0 :: (ws ++ b)) := by simpa using h3
        rcases List.append_eq_append_iff.1 h4 with ⟨d, hd1, hd2⟩ | ⟨e, he1, he2⟩
        · exact ⟨d, by simpa using hd2⟩
        · cases e with
          | nil =>
            rw [List.nil_append] at he2
            exact ⟨[], by simpa using he2.symm⟩
          | cons e0 es =>
            simp only [List.cons_append, List.cons.injEq] at he2
            have : '{' ∈ w0 :: ws := by
              rw [he1, ← he2.1]
              exact List.mem_append_right _ (List.mem_cons_self _ _)
            exact absurd this hw

/-- In a content with exactly one match, the text of the match occurs once. -/
theorem occurrence_unique (content : Str) (m : MacroMatch) (h : matchAllMacros content = [m])
    (a b : Str) (hab : content = a ++ m.text ++ b) :
    ∀ a1 b1, content = a1 ++ m.text ++ b1 → a.length ≤ a1.length := by
  obtain ⟨p0, q0, hc, hmm, hmin, hq⟩ := matchAllMacros_single content m h
  obtain ⟨w, hwt, hwne, hw⟩ := matchMacroAt_text_form _ _ hmm
  have key : ∀ a1 b1, content = a1 ++ m.text ++ b1 → a1 = p0 := by
    intro a1 b1 h1
    obtain ⟨m1, hm1⟩ := matchMacroAt_text_isSome _ _ hmm b1
    have heq : p0 ++ (m.text ++ q0) = a1 ++ (m.text ++ b1) := by
      rw [← List.append_assoc, ← List.append_assoc, ← hc, ← h1]
    rcases List.append_eq_append_iff.1 heq with ⟨c, hc1, hc2⟩ | ⟨c, hc1, hc2⟩
    · cases c with
      | nil => simpa using hc1
      | cons c0 cs =>
        have hsh : '{' :: '{' :: w ++ q0 = (c0 :: cs) ++ ('{' :: '{' :: w ++ b1) := by
          rw [← hwt]
          exact hc2
        obtain ⟨d, hd⟩ := overlap_shift w q0 (c0 :: cs) b1 hw hwne (by simp) hsh
        have hnone := matchAllMacros_nil_none q0 hq d (m.text ++ b1) (by rw [hd, hwt])
        rw [hm1] at hnone
        exact absurd hnone (by simp)
    · cases c with
      | nil => simpa using hc1.symm
      | cons c0 cs =>
        have hnone := hmin a1 (c0 :: cs) hc1 (by simp)
        rw [List.append_assoc, ← hc2, hm1] at hnone
        exact absurd hnone (by simp)
  intro a1 b1 h1
  rw [key a b hab, key a1 b1 h1]

/-! ## Lemmas on `replace` -/

theorem getSubstitution_of_no_dollar (matched before after : Str) :
    ∀ repl : Str, '$' ∉ repl → getSubstitution matched before after repl = repl
  | [], _ => rfl
  | [_], _ => rfl
  | c :: d :: t, h => by
    have hc : c ≠ '$' := fun hc => h (hc ▸ List.mem_cons_self c (d :: t))
    have ht : '$' ∉ d :: t := fun hm => h (List.mem_cons_of_mem c hm)
    rw [getSubstitution, if_neg hc, getSubstitution_of_no_dollar matched before after (d :: t) ht]

theorem splitFirst_of_leftmost (pat : Str) :
    ∀ pre post : Str,
      (∀ a b, pre ++ pat ++ post = a ++ pat ++ b → pre.length ≤ a.length) →
      splitFirst pat (pre ++ pat ++ post) = some (pre, post)
  | [], post, _ => by
    cases hp : pat ++ post with
    | nil =>
      have h1 : pat = [] := (List.append_eq_nil.1 hp).1
      have h2 : post = [] := (List.append_eq_nil.1 hp).2
      simp [splitFirst, h1, h2]
    | cons c t =>
      have hpre : pat.isPrefixOf (c :: t) = true := by
        rw [← hp]
        exact List.isPrefixOf_iff_prefix.2 ⟨post, rfl⟩
      have hdrop : (c :: t).drop pat.length = post := by
        rw [← hp]
        exact List.drop_left pat post
      simp [splitFirst, hp, hpre, hdrop]
  | c :: pre, post, h => by
    have hnot : pat.isPrefixOf (c :: (pre ++ pat ++ post)) = false := by
      cases hb : pat.isPrefixOf (c :: (pre ++ pat ++ post)) with
      | false => rfl
      | true =>
        obtain ⟨b, hb1⟩ := List.isPrefixOf_iff_prefix.1 hb
        have := h [] b (by simpa using hb1.symm)
        simp at this
    have ih := splitFirst_of_leftmost pat pre post (by
      intro a b hab
      have := h (c :: a) b (by simp [hab])
      simpa using this)
    have hcons : c :: pre ++ pat ++ post = c :: (pre ++ pat ++ post) := by simp
    rw [hcons, splitFirst, hnot, ih]
    rfl

theorem replace_of_leftmost (pat repl pre post : Str)
    (h : ∀ a b, pre ++ pat ++ post = a ++ pat ++ b → pre.length ≤ a.length) :
    replace (pre ++ pat ++ post) pat repl = pre ++ getSubstitution pat pre post repl ++ post := by
  unfold replace
  rw [splitFirst_of_leftmost pat pre post h]

/-! ## Lemmas on `runMacros` -/

theorem readMember_of_own (kumaMacros : Registry) (name : Str) (f : List Arg → Str)
    (h : kumaMacros name = some f) : readMember kumaMacros name = Member.ownFunction f := by
  simp [readMember, h]

theorem readMember_of_unknown (kumaMacros : Registry) (name : Str) (h : kumaMacros name = none)
    (hk : name ∉ objectPrototypeKeys) : readMember kumaMacros name = Member.absent := by
  have hp : name ≠ "__proto__".toList := by
    intro hn
    rw [hn] at hk
    exact hk (by decide)
  unfold readMember
  rw [h]
  simp only [if_neg hp, if_neg hk]

theorem stepContent_of_unknown (kumaMacros : Registry) (c : Str) (m : MacroMatch)
    (h : kumaMacros m.functionName = none) (hk : m.functionName ∉ objectPrototypeKeys) :
    stepContent kumaMacros c m = Completion.normal c := by
  simp [stepContent, macroResult, readMember_of_unknown kumaMacros _ h hk]

theorem stepContent_of_own (kumaMacros : Registry) (c : Str) (m : MacroMatch)
    (f : List Arg → Str) (h : kumaMacros m.functionName = some f) :
    stepContent kumaMacros c m =
      if f (macroArguments m) ≠ m.text then
        Completion.normal (replace c m.text (f (macroArguments m)))
      else Completion.normal c := by
  simp only [stepContent, macroResult, readMember_of_own kumaMacros _ f h]
  by_cases hr : f (macroArguments m) = m.text
  · simp [hr]
  · simp [hr, replaceValue, stringOfValue]

theorem stepContent_of_own_normal (kumaMacros : Registry) (c : Str) (m : MacroMatch)
    (f : List Arg → Str) (h : kumaMacros m.functionName = some f) :
    ∃ c1, stepContent kumaMacros c m = Completion.normal c1 := by
  rw [stepContent_of_own kumaMacros c m f h]
  by_cases hr : f (macroArguments m) = m.text
  · exact ⟨c, by simp [hr]⟩
  · exact ⟨replace c m.text (f (macroArguments m)), by simp [hr]⟩

/-- A step for a name that `Object.prototype` does not define returns. -/
theorem stepContent_normal (kumaMacros : Registry) (c : Str) (m : MacroMatch)
    (hk : m.functionName ∉ objectPrototypeKeys) :
    ∃ c1, stepContent kumaMacros c m = Completion.normal c1 := by
  cases h : kumaMacros m.functionName with
  | none => exact ⟨c, stepContent_of_unknown kumaMacros c m h hk⟩
  | some f =>
    rw [stepContent_of_own kumaMacros c m f h]
    by_cases hr : f (macroArguments m) = m.text
    · exact ⟨c, by simp [hr]⟩
    · exact ⟨replace c m.text (f (macroArguments m)), by simp [hr]⟩

theorem runSteps_data (kumaMacros : Registry) (ms : List MacroMatch) :
    ∀ state final : Str × Data, runSteps kumaMacros ms state = Completion.normal final →
      final.2 = ms.foldl stepData state.2 := by
  induction ms with
  | nil =>
    intro state final h
    simp only [runSteps, Completion.normal.injEq] at h
    rw [← h]
    rfl
  | cons m rest ih =>
    intro state final h
    rw [runSteps] at h
    cases hs : macroStep kumaMacros state m with
    | throwTypeError => rw [hs] at h; exact absurd h (by simp)
    | normal next =>
      rw [hs] at h
      have hnext : next.2 = stepData state.2 m := by
        unfold macroStep at hs
        cases hc : stepContent kumaMacros state.1 m with
        | throwTypeError => rw [hc] at hs; exact absurd hs (by simp)
        | normal c =>
          rw [hc] at hs
          simp only [Completion.normal.injEq] at hs
          rw [← hs]
      rw [ih next final h, hnext]
      rfl

theorem runSteps_normal (kumaMacros : Registry) (ms : List MacroMatch)
    (hk : ∀ m ∈ ms, m.functionName ∉ objectPrototypeKeys) :
    ∀ state : Str × Data, ∃ final, runSteps kumaMacros ms state = Completion.normal final := by
  induction ms with
  | nil => intro state; exact ⟨state, rfl⟩
  | cons m rest ih =>
    intro state
    obtain ⟨c, hc⟩ := stepContent_normal kumaMacros state.1 m (hk m (List.mem_cons_self m rest))
    obtain ⟨final, hf⟩ := ih (fun x hx => hk x (List.mem_cons_of_mem m hx))
      (c, stepData state.2 m)
    exact ⟨final, by simp [runSteps, macroStep, hc, hf]⟩

theorem runSteps_unknown (kumaMacros : Registry) (ms : List MacroMatch)
    (h : ∀ m ∈ ms, kumaMacros m.functionName = none ∧ m.functionName ∉ objectPrototypeKeys) :
    ∀ state : Str × Data,
      ∃ d, runSteps kumaMacros ms state = Completion.normal (state.1, d) := by
  induction ms with
  | nil => intro state; exact ⟨state.2, rfl⟩
  | cons m rest ih =>
    intro state
    have hm := h m (List.mem_cons_self m rest)
    obtain ⟨d, hd⟩ := ih (fun x hx => h x (List.mem_cons_of_mem m hx))
      (state.1, stepData state.2 m)
    exact ⟨d, by simp [runSteps, macroStep, stepContent_of_unknown kumaMacros _ m hm.1 hm.2, hd]⟩

/-- When no matched placeholder has a name that the registry defines or that `Object.prototype`
defines, `runMacros` returns and the content it returns is the content it was given. -/
theorem runMacros_unknown_names (kumaMacros : Registry) (content : Str)
    (h : ∀ m ∈ matchAllMacros content,
      kumaMacros m.functionName = none ∧ m.functionName ∉ objectPrototypeKeys) :
    ∃ d, runMacros kumaMacros content = Completion.normal ⟨content, d⟩ := by
  obtain ⟨d, hd⟩ := runSteps_unknown kumaMacros _ h (content, { hasSidebar := none })
  exact ⟨d, by simp [runMacros, hd]⟩

theorem runMacros_single (kumaMacros : Registry) (content : Str) (m : MacroMatch)
    (h : matchAllMacros content = [m]) :
    runMacros kumaMacros content =
      match stepContent kumaMacros content m with
      | Completion.throwTypeError => Completion.throwTypeError
      | Completion.normal c => Completion.normal ⟨c, stepData { hasSidebar := none } m⟩ := by
  cases hc : stepContent kumaMacros content m <;> simp [runMacros, h, runSteps, macroStep, hc]

theorem macroArguments_of_match (s : Str) (m : MacroMatch) (h : matchMacroAt s = some m) :
    macroArguments m =
      match m.args with
      | none => []
      | some a => parseArgs a := by
  obtain ⟨_, _, _, hsh⟩ := matchMacroAt_shape s m h
  rcases hsh with ⟨ha, _⟩ | ⟨a, ha, hane, _, _⟩
  · simp [macroArguments, ha, truthy]
  · cases a with
    | nil => exact absurd rfl hane
    | cons a0 as => simp [macroArguments, ha, truthy]

/-- The behaviour of `runMacros` on a content with exactly one placeholder, whose name the
registry defines: the function is called without arguments when there is no argument string
and with the elements of `parseArgs(args)` otherwise; when its result holds no dollar sign,
the content comes out with the text of the placeholder replaced by exactly that result; in
general the replacement is the substitution of the result. -/
theorem runMacros_single_placeholder (kumaMacros : Registry) (content pre post : Str)
    (m : MacroMatch) (f : List Arg → Str) (hm : matchAllMacros content = [m])
    (hf : kumaMacros m.functionName = some f) (hc : content = pre ++ m.text ++ post) :
    (macroResult kumaMacros m = Completion.normal (JSValue.str (f (macroArguments m))) ∧
        macroArguments m =
          match m.args with
          | none => []
          | some a => parseArgs a) ∧
      ('$' ∉ f (macroArguments m) →
        ∃ d, runMacros kumaMacros content
          = Completion.normal ⟨pre ++ f (macroArguments m) ++ post, d⟩) ∧
      (f (macroArguments m) ≠ m.text →
        ∃ d, runMacros kumaMacros content
          = Completion.normal
              ⟨pre ++ getSubstitution m.text pre post (f (macroArguments m)) ++ post, d⟩) := by
  obtain ⟨_, _, _, hmm, _, _⟩ := matchAllMacros_single content m hm
  have hleft : ∀ a b, pre ++ m.text ++ post = a ++ m.text ++ b → pre.length ≤ a.length := by
    intro a b hab
    exact occurrence_unique content m hm pre post hc a b (hc.trans hab)
  have hrun := runMacros_single kumaMacros content m hm
  rw [stepContent_of_own kumaMacros content m f hf] at hrun
  have hrep : f (macroArguments m) ≠ m.text →
      ∃ d, runMacros kumaMacros content
        = Completion.normal
            ⟨pre ++ getSubstitution m.text pre post (f (macroArguments m)) ++ post, d⟩ := by
    intro hne
    rw [if_pos hne] at hrun
    refine ⟨stepData { hasSidebar := none } m, ?_⟩
    rw [hrun]
    simp only
    rw [hc, replace_of_leftmost m.text _ pre post hleft]
  refine ⟨⟨by simp [macroResult, readMember_of_own kumaMacros _ f hf],
    macroArguments_of_match _ m hmm⟩, ?_, hrep⟩
  intro hd
  by_cases hne : f (macroArguments m) = m.text
  · rw [if_neg (by simpa using hne)] at hrun
    refine ⟨stepData { hasSidebar := none } m, ?_⟩
    rw [hrun, hne, hc]
  · obtain ⟨d, hd2⟩ := hrep hne
    rw [getSubstitution_of_no_dollar _ _ _ _ hd] at hd2
    exact ⟨d, hd2⟩

theorem lookup_functionNames (name t : Str) (h : functionNames.lookup name = some t) :
    t ∈ ["CSSRef".toList, "JsSidebar".toList, "JSRef".toList] ∧
      name ∈ ["CSSRef".toList, "JsSidebar".toList, "jsSidebar".toList, "JSRef".toList] := by
  simp only [functionNames, List.lookup] at h
  split at h
  · rename_i hb
    injection h with h
    have := eq_of_beq hb
    subst this; subst h
    decide
  · split at h
    · rename_i hb
      injection h with h
      have := eq_of_beq hb
      subst this; subst h
      decide
    · split at h
      · rename_i hb
        injection h with h
        have := eq_of_beq hb
        subst this; subst h
        decide
      · split at h
        · rename_i hb
          injection h with h
          have := eq_of_beq hb
          subst this; subst h
          decide
        · exact absurd h (by simp)

/-- Away from the names `Object.prototype` defines, `runMacros` returns, the sidebar value it
returns is absent or one of the three tags, and it is absent when no placeholder has one of
the four sidebar names. -/
theorem runMacros_sidebar_closed (kumaMacros : Registry) (content : Str)
    (h : ∀ m ∈ matchAllMacros content, m.functionName ∉ objectPrototypeKeys) :
    ∃ r, runMacros kumaMacros content = Completion.normal r ∧
      (r.data.hasSidebar = none ∨
        ∃ t ∈ ["CSSRef".toList, "JsSidebar".toList, "JSRef".toList],
          r.data.hasSidebar = some (SidebarValue.tag t)) ∧
      ((∀ m ∈ matchAllMacros content, m.functionName ∉
          ["CSSRef".toList, "JsSidebar".toList, "jsSidebar".toList, "JSRef".toList]) →
        r.data.hasSidebar = none) := by
  have side : ∀ m : MacroMatch, m.functionName ∉ objectPrototypeKeys →
      hasSidebar (m.functionName, m.args) = none ∨
        ∃ t, functionNames.lookup m.functionName = some t ∧
          hasSidebar (m.functionName, m.args) = some (SidebarValue.tag t) := by
    intro m hk
    unfold hasSidebar
    cases hl : functionNames.lookup m.functionName with
    | none => left; simp [hk]
    | some t => right; exact ⟨t, rfl, rfl⟩
  have inv : ∀ (ms : List MacroMatch) (d : Data),
      (∀ m ∈ ms, m.functionName ∉ objectPrototypeKeys) →
      (d.hasSidebar = none ∨
        ∃ t ∈ ["CSSRef".toList, "JsSidebar".toList, "JSRef".toList],
          d.hasSidebar = some (SidebarValue.tag t)) →
      ((ms.foldl stepData d).hasSidebar = none ∨
        ∃ t ∈ ["CSSRef".toList, "JsSidebar".toList, "JSRef".toList],
          (ms.foldl stepData d).hasSidebar = some (SidebarValue.tag t)) := by
    intro ms
    induction ms with
    | nil => intro d _ hs; exact hs
    | cons m rest ih =>
      intro d hk hs
      rw [List.foldl_cons]
      apply ih _ (fun x hx => hk x (List.mem_cons_of_mem m hx))
      rcases side m (hk m (List.mem_cons_self m rest)) with hn | ⟨t, hl, ht⟩
      · simpa [stepData, hn, sidebarTruthy] using hs
      · by_cases htr : sidebarTruthy (hasSidebar (m.functionName, m.args)) = true
        · right
          refine ⟨t, (lookup_functionNames _ _ hl).1, ?_⟩
          simp only [stepData, htr, if_true]
          exact ht
        · simpa [stepData, htr] using hs
  have inv2 : ∀ (ms : List MacroMatch) (d : Data),
      (∀ m ∈ ms, m.functionName ∉ objectPrototypeKeys) →
      (∀ m ∈ ms, m.functionName ∉
          ["CSSRef".toList, "JsSidebar".toList, "jsSidebar".toList, "JSRef".toList]) →
      d.hasSidebar = none →
      (ms.foldl stepData d).hasSidebar = none := by
    intro ms
    induction ms with
    | nil => intro d _ _ hs; exact hs
    | cons m rest ih =>
      intro d hk hn hs
      rw [List.foldl_cons]
      apply ih _ (fun x hx => hk x (List.mem_cons_of_mem m hx))
        (fun x hx => hn x (List.mem_cons_of_mem m hx))
      rcases side m (hk m (List.mem_cons_self m rest)) with hnone | ⟨t, hl, _⟩
      · simpa [stepData, hnone, sidebarTruthy] using hs
      · exact absurd (lookup_functionNames _ _ hl).2 (hn m (List.mem_cons_self m rest))
  obtain ⟨final, hf⟩ := runSteps_normal kumaMacros _ h (content, { hasSidebar := none })
  have hdata := runSteps_data kumaMacros _ _ _ hf
  refine ⟨⟨final.1, final.2⟩, by simp [runMacros, hf], ?_, ?_⟩
  · show final.2.hasSidebar = none ∨ _
    rw [hdata]
    exact inv _ _ h (Or.inl rfl)
  · intro hn
    show final.2.hasSidebar = none
    rw [hdata]
    exact inv2 _ _ h hn rfl

/-! ## The argument parser -/

/-- C8 (amended): text that matches none of the literal shapes is skipped by `parseArgs`,
it contributes no element: a run of characters that are neither quotes nor digits in front of
an argument string leaves the result as it is (so `parseArgs("??")` is the empty list), and no
element of any result of `parseArgs` is the undefined marker, the fall-through return being
never reached. -/
theorem parseArgs_skips_unrecognized (junk s : Str)
    (h : ∀ c ∈ junk, c ≠ dquote ∧ c ≠ squote ∧ isDigitChar c = false) :
    parseArgs (junk ++ s) = parseArgs s ∧ Arg.undefined ∉ parseArgs (junk ++ s) ∧
      Branch.fallthrough ∉ parseArgsBranches (junk ++ s) := by
  refine ⟨?_, ?_, ?_⟩
  · unfold parseArgs
    rw [matchAllArguments_skip_plain junk s h]
  · intro hmem
    obtain ⟨m, hm, hval⟩ := List.mem_map.1 hmem
    obtain ⟨s1, hs1⟩ := mem_scanMatches _ _ _ _ m hm
    rcases argOfMatch_shape s1 m hs1 with ⟨_, _, _, he⟩ | ⟨_, _, _, _, he⟩ |
      ⟨_, _, _, _, _, he⟩ <;> simp [he] at hval
  · intro hmem
    obtain ⟨m, hm, hval⟩ := List.mem_map.1 hmem
    obtain ⟨s1, hs1⟩ := mem_scanMatches _ _ _ _ m hm
    rcases argOfMatch_shape s1 m hs1 with ⟨_, _, _, he⟩ | ⟨_, _, _, _, he⟩ |
      ⟨_, _, _, _, _, he⟩ <;> simp [he] at hval

/-- C8, witness: the argument string `??`, with nothing after it. -/
theorem parseArgs_skips_unrecognized_witness :
    parseArgs ("??".toList ++ []) = parseArgs [] ∧
      Arg.undefined ∉ parseArgs ("??".toList ++ []) ∧
      Branch.fallthrough ∉ parseArgsBranches ("??".toList ++ []) :=
  parseArgs_skips_unrecognized "??".toList [] (by decide)

/-- C8, counterexample: `parseArgs("??")` is the empty list, not the one-element list
`[undefined]`. -/
theorem parseArgs_unrecognized_counterexample :
    parseArgs "??".toList = [] ∧ parseArgs "??".toList ≠ [Arg.undefined] := by
  decide

/-- C10 (amended): the `emptyStr` branch of `parseArgs` is reachable, and it is the branch of
the empty quote pairs: for every argument string and every match in it, the callback returns
from the `emptyStr` branch exactly when the matched text is an empty pair of single or double
quotes; the two quoted-string groups are then undefined (these alternatives need a non-empty
interior), the fourth group holds the matched text and the value returned is the empty
string. -/
theorem emptyStr_branch_iff (s : Str) (m : ArgMatch) (h : m ∈ matchAllArguments s) :
    ((argOfMatch m).1 = Branch.emptyStr ↔
        (m.text = [squote, squote] ∨ m.text = [dquote, dquote])) ∧
      ((argOfMatch m).1 = Branch.emptyStr →
        m.str1 = none ∧ m.str2 = none ∧ m.emptyStr = some m.text ∧
          (argOfMatch m).2 = Arg.str []) := by
  obtain ⟨s1, hs1⟩ := mem_scanMatches _ _ _ _ m h
  rcases argOfMatch_shape s1 m hs1 with ⟨body, hb, ht, he⟩ | ⟨d, ds, hd, ht, he⟩ |
    ⟨ht, h1, h2, _, h4, he⟩
  · cases body with
    | nil => exact absurd rfl hb
    | cons b bs => rcases ht with ht | ht <;> simp [he, ht]
  · have hsq : d ≠ squote := by
      intro hc; rw [hc] at hd; exact absurd hd (by decide)
    have hdq : d ≠ dquote := by
      intro hc; rw [hc] at hd; exact absurd hd (by decide)
    simp [he, ht, hsq, hdq]
  · simp [he, ht, h1, h2, h4]

/-- C10, witness: the only match of the argument string made of two single quotes. -/
theorem emptyStr_branch_iff_witness :
    ((argOfMatch ⟨[squote, squote], none, none, none, some [squote, squote]⟩).1
        = Branch.emptyStr ↔
        ((⟨[squote, squote], none, none, none, some [squote, squote]⟩ : ArgMatch).text
            = [squote, squote] ∨
          (⟨[squote, squote], none, none, none, some [squote, squote]⟩ : ArgMatch).text
            = [dquote, dquote])) ∧
      ((argOfMatch ⟨[squote, squote], none, none, none, some [squote, squote]⟩).1
          = Branch.emptyStr →
        (⟨[squote, squote], none, none, none, some [squote, squote]⟩ : ArgMatch).str1 = none ∧
        (⟨[squote, squote], none, none, none, some [squote, squote]⟩ : ArgMatch).str2 = none ∧
        (⟨[squote, squote], none, none, none, some [squote, squote]⟩ : ArgMatch).emptyStr
          = some (⟨[squote, squote], none, none, none, some [squote, squote]⟩ : ArgMatch).text ∧
        (argOfMatch ⟨[squote, squote], none, none, none, some [squote, squote]⟩).2
          = Arg.str []) :=
  emptyStr_branch_iff [squote, squote]
    ⟨[squote, squote], none, none, none, some [squote, squote]⟩ (by decide)

/-- C10, counterexample: on the argument string made of two single quotes the quoted-string
groups stay undefined and the one element of the result comes from the `emptyStr` branch. -/
theorem emptyStr_branch_reached :
    matchAllArguments [squote, squote]
        = [⟨[squote, squote], none, none, none, some [squote, squote]⟩] ∧
      parseArgsBranches [squote, squote] = [Branch.emptyStr] ∧
      parseArgs [squote, squote] = [Arg.str []] := by
  decide

/-- C6: for every list of non-empty strings without a double quote, `parseArgs` applied to
the strings wrapped in double quotes and joined by commas returns exactly these strings, in
their order. -/
theorem parseArgs_joinQuoted (ss : List Str) (h : ∀ s ∈ ss, s ≠ [] ∧ dquote ∉ s) :
    parseArgs (joinQuoted ss) = ss.map Arg.str := by
  induction ss with
  | nil => rfl
  | cons s rest ih =>
    have hs := h s (List.mem_cons_self s rest)
    have ih1 := ih (fun x hx => h x (List.mem_cons_of_mem s hx))
    cases rest with
    | nil =>
      have := matchAllArguments_dquoted s [] hs.1 hs.2
      have hnil : matchAllArguments [] = [] := rfl
      unfold parseArgs joinQuoted
      rw [this, hnil]
      simp [argOfMatch_quoted1 _ s hs.1]
    | cons s2 rest2 =>
      have h1 := matchAllArguments_dquoted s (',' :: joinQuoted (s2 :: rest2)) hs.1 hs.2
      have h2 : matchAllArguments (',' :: joinQuoted (s2 :: rest2))
          = matchAllArguments (joinQuoted (s2 :: rest2)) :=
        matchAllArguments_skip_plain [','] _ (by decide)
      unfold parseArgs at ih1 ⊢
      rw [joinQuoted, h1, h2, List.map_cons, ih1, argOfMatch_quoted1 _ s hs.1]
      rfl

/-- C6, witness: the argument string of `a` and `b`, each in double quotes, joined by a
comma. -/
theorem parseArgs_joinQuoted_witness :
    parseArgs (joinQuoted ["a".toList, "b".toList]) = ["a".toList, "b".toList].map Arg.str :=
  parseArgs_joinQuoted ["a".toList, "b".toList] (by decide)

/-- C7 (amended): for every non-empty string `x` without a single quote and every non-empty
string of decimal digits `d`, `parseArgs` applied to `x` in single quotes, `d` and an empty
pair of single quotes returns the three elements `x`, a number and the empty string, where the
number is the double nearest to the base-10 value of `d`; it is that value itself whenever the
value is at most `2 ^ 53`. -/
theorem parseArgs_quoted_number_empty (x d : Str) (hx : x ≠ []) (hq : squote ∉ x) (hd : d ≠ [])
    (hdig : ∀ c ∈ d, isDigitChar c = true) :
    parseArgs (quotedNumberEmpty x d)
        = [Arg.str x, Arg.num (toNumber (decimalValue d)), Arg.str []] ∧
      (decimalValue d ≤ 2 ^ 53 →
        parseArgs (quotedNumberEmpty x d)
          = [Arg.str x, Arg.num (JSNumber.finite (decimalValue d)), Arg.str []]) := by
  have h := parseArgs_quotedNumberEmpty x d hx hq hd hdig
  refine ⟨h, fun hle => ?_⟩
  rw [h, parseInt, toNumber_of_le _ hle]

/-- C7, witness: the argument string of `x` in single quotes, `5` and an empty pair of
single quotes gives the string `x`, the number 5 and the empty string. -/
theorem parseArgs_quoted_number_empty_witness :
    parseArgs "'x', 5, ''".toList
      = [Arg.str "x".toList, Arg.num (JSNumber.finite 5), Arg.str []] :=
  (parseArgs_quoted_number_empty "x".toList "5".toList (by decide) (by decide) (by decide)
    (by decide)).2 (by decide)

/-- C7, counterexample: for the digits `9007199254740993` the number returned is
`9007199254740992`, not the integer the digits denote. -/
theorem parseArgs_number_rounded :
    quotedNumberEmpty "x".toList "9007199254740993".toList
        = "'x', 9007199254740993, ''".toList ∧
      decimalValue "9007199254740993".toList = 9007199254740993 ∧
      parseArgs (quotedNumberEmpty "x".toList "9007199254740993".toList)
        = [Arg.str "x".toList, Arg.num (JSNumber.finite 9007199254740992), Arg.str []] := by
  refine ⟨by decide, by decide, ?_⟩
  rw [parseArgs_quotedNumberEmpty _ _ (by decide) (by decide) (by decide) (by decide),
    parseInt_rounds]

/-! ## The file filters -/

/-- C9 (amended): for every list of file names and every path, the path is among those
`htmlPages` is built from if and only if it is one of the file names, the text `.html` occurs
somewhere in it (not only as its extension) and it contains no opening parenthesis; and the
same for `mdPages` with the text `.md`.  A path with an opening parenthesis passes neither
filter; a closing parenthesis alone does not exclude a path. -/
theorem ingestion_filters (mdnContentFilenames : List Str) (path : Str) :
    (path ∈ htmlPages mdnContentFilenames ↔
        path ∈ mdnContentFilenames ∧ ".html".toList <:+: path ∧ '(' ∉ path) ∧
      (path ∈ mdPages mdnContentFilenames ↔
        path ∈ mdnContentFilenames ∧ ".md".toList <:+: path ∧ '(' ∉ path) := by
  have hp : (!testLiteral "(".toList path) = true ↔ '(' ∉ path := by
    have := testLiteral_singleton '(' path
    cases hb : testLiteral "(".toList path
    · have hb2 : testLiteral ['('] path = false := hb
      simp [← this, hb2]
    · have hb2 : testLiteral ['('] path = true := hb
      simp [← this, hb2]
  constructor
  · unfold htmlPages
    rw [List.mem_filter, List.mem_filter, hp, testLiteral_iff_infix, and_assoc]
  · unfold mdPages
    rw [List.mem_filter, List.mem_filter, hp, testLiteral_iff_infix, and_assoc]

/-- C9, counterexample: a path whose extension is `.bak` passes the HTML filter because
`.html` occurs in it, a path whose extension is `.mdx` passes the Markdown filter, and a path
with a closing parenthesis passes the HTML filter. -/
theorem ingestion_filters_counterexample :
    ("docs/page.html.bak".toList ∈ htmlPages ["docs/page.html.bak".toList] ∧
        hasExtension ".html".toList "docs/page.html.bak".toList = false) ∧
      ("docs/page.mdx".toList ∈ mdPages ["docs/page.mdx".toList] ∧
        hasExtension ".md".toList "docs/page.mdx".toList = false) ∧
      ("docs/a).html".toList ∈ htmlPages ["docs/a).html".toList] ∧
        hasExtension ".html".toList "docs/a).html".toList = true ∧
        hasParenthesis "docs/a).html".toList = true) := by
  decide

/-! ## The macro engine -/

/-- C1, the failing input: a registry function that returns `$$5`; the content `{{Money}}`
has this one placeholder and comes out as `$5`, not as the string the function returned. -/
theorem runMacros_dollar_pattern :
    matchAllMacros "{{Money}}".toList = [⟨"{{Money}}".toList, "Money".toList, none⟩] ∧
      (sampleRegistry "Money".toList).map (fun f => f []) = some "$$5".toList ∧
      runMacros sampleRegistry "{{Money}}".toList
        = Completion.normal ⟨"$5".toList, ⟨none⟩⟩ := by
  decide

/-- C2, the failing inputs: the registry object with the macros `A`, `Echo` and `Money` has
no key `toString` and no key `__proto__`, yet the read `kumaMacros[functionName]` finds the
members of these names that the object inherits: the content `{{toString}}` comes out as
`[object Object]`, and on the content `{{__proto__}}` the call throws a TypeError. -/
theorem runMacros_inherited_member :
    (sampleRegistry "toString".toList).isNone = true ∧
      runMacros sampleRegistry "{{toString}}".toList
        = Completion.normal
            ⟨"[object Object]".toList, ⟨some (SidebarValue.inherited "toString".toList)⟩⟩ ∧
      (sampleRegistry "__proto__".toList).isNone = true ∧
      runMacros sampleRegistry "{{__proto__}}".toList = Completion.throwTypeError := by
  decide

/-- C3 (amended): when the step of `runMacros` for a matched placeholder computes a result
that differs from the matched text (a result that is no function and whose string holds no
dollar sign), the step replaces the first occurrence only of the matched text in the result
buffer: the text before and the text after that occurrence stay as they are, so that a
further occurrence of the placeholder after the first one is still in the buffer after the
step. -/
theorem macroStep_replaces_first (kumaMacros : Registry) (data : Data) (m : MacroMatch)
    (v : JSValue) (pre post : Str)
    (hv : macroResult kumaMacros m = Completion.normal v) (hne : v ≠ JSValue.str m.text)
    (hfn : v ≠ JSValue.protoAccessor) (hd : '$' ∉ stringOfValue kumaMacros v)
    (hleft : ∀ a b, pre ++ m.text ++ post = a ++ m.text ++ b → pre.length ≤ a.length) :
    macroStep kumaMacros (pre ++ m.text ++ post, data) m
        = Completion.normal (pre ++ stringOfValue kumaMacros v ++ post, stepData data m) ∧
      (m.text <:+: post → m.text <:+: pre ++ stringOfValue kumaMacros v ++ post) := by
  have hrep : replaceValue kumaMacros (pre ++ m.text ++ post) m.text v
      = Completion.normal (pre ++ stringOfValue kumaMacros v ++ post) := by
    have hr := replace_of_leftmost m.text (stringOfValue kumaMacros v) pre post hleft
    rw [getSubstitution_of_no_dollar _ _ _ _ hd] at hr
    cases v with
    | protoAccessor => exact absurd rfl hfn
    | _ => simp only [replaceValue, hr]
  refine ⟨?_, fun hin => ?_⟩
  · simp only [macroStep, stepContent, hv, if_pos hne, hrep]
  · obtain ⟨a, b, hab⟩ := hin
    exact ⟨pre ++ stringOfValue kumaMacros v ++ a, b, by rw [← hab]; simp⟩

/-- C3, witness: the first step on a buffer of two identical invocations of `A`. -/
theorem macroStep_replaces_first_witness :
    macroStep sampleRegistry ("{{A}}{{A}}".toList, ⟨none⟩) ⟨"{{A}}".toList, "A".toList, none⟩
        = Completion.normal ("x{{A}}".toList, ⟨none⟩) ∧
      ("{{A}}".toList <:+: "{{A}}".toList → "{{A}}".toList <:+: "x{{A}}".toList) :=
  macroStep_replaces_first sampleRegistry ⟨none⟩ ⟨"{{A}}".toList, "A".toList, none⟩
    (JSValue.str "x".toList) [] "{{A}}".toList (by decide) (by decide) (by decide) (by decide)
    (by intro a b _; exact Nat.zero_le _)

/-- C3, counterexample: on the content of two identical invocations of `A`, which the sample
registry expands to `x`, both invocations are matched, and the buffer after the step of the
first one is `x{{A}}`: the second occurrence of the placeholder is still there. -/
theorem macroStep_not_global :
    matchAllMacros "{{A}}{{A}}".toList
        = [⟨"{{A}}".toList, "A".toList, none⟩, ⟨"{{A}}".toList, "A".toList, none⟩] ∧
      macroStep sampleRegistry ("{{A}}{{A}}".toList, ⟨none⟩)
          ⟨"{{A}}".toList, "A".toList, none⟩
        = Completion.normal ("x{{A}}".toList, ⟨none⟩) ∧
      "{{A}}".toList <:+: "x{{A}}".toList := by
  decide

/-- C4 (amended): for each of the four sidebar names and every registry, on a text whose only
match of `matchMacro` is an invocation of that name `runMacros` returns and gives the sidebar
signal of the name; and an invocation written without parentheses, or with a non-empty
argument string without an opening brace in parentheses, between two texts without an
opening brace, is such a text. -/
theorem sidebar_signal (kumaMacros : Registry) (name signal : Str)
    (hN : (name = "CSSRef".toList ∧ signal = "CSSRef".toList) ∨
      (name = "JsSidebar".toList ∧ signal = "JsSidebar".toList) ∨
      (name = "jsSidebar".toList ∧ signal = "JsSidebar".toList) ∨
      (name = "JSRef".toList ∧ signal = "JSRef".toList)) :
    (∀ text m, matchAllMacros text = [m] → m.functionName = name →
        ∃ r, runMacros kumaMacros text = Completion.normal r ∧
          r.data.hasSidebar = some (SidebarValue.tag signal)) ∧
      (∀ pre post args, '{' ∉ pre → '{' ∉ post → (∀ a, args = some a → a ≠ [] ∧ '{' ∉ a) →
        ∃ r, runMacros kumaMacros (pre ++ invocation name args ++ post) = Completion.normal r ∧
          r.data.hasSidebar = some (SidebarValue.tag signal)) := by
  have hside : ∀ args, hasSidebar (name, args) = some (SidebarValue.tag signal) := by
    intro args
    rcases hN with ⟨h1, h2⟩ | ⟨h1, h2⟩ | ⟨h1, h2⟩ | ⟨h1, h2⟩ <;> subst h1 <;> subst h2 <;> rfl
  have hsig : signal ≠ [] := by
    rcases hN with ⟨_, h2⟩ | ⟨_, h2⟩ | ⟨_, h2⟩ | ⟨_, h2⟩ <;> subst h2 <;> decide
  have hname : name ≠ [] ∧ (∀ c ∈ name, isWordChar c = true) ∧ name ∉ objectPrototypeKeys := by
    rcases hN with ⟨h1, _⟩ | ⟨h1, _⟩ | ⟨h1, _⟩ | ⟨h1, _⟩ <;> subst h1 <;> decide
  have hgen : ∀ text m, matchAllMacros text = [m] → m.functionName = name →
      ∃ r, runMacros kumaMacros text = Completion.normal r ∧
        r.data.hasSidebar = some (SidebarValue.tag signal) := by
    intro text m hm hfn
    obtain ⟨c, hc⟩ := stepContent_normal kumaMacros text m (hfn ▸ hname.2.2)
    refine ⟨⟨c, stepData { hasSidebar := none } m⟩, ?_, ?_⟩
    · rw [runMacros_single kumaMacros text m hm, hc]
    · show (stepData { hasSidebar := none } m).hasSidebar = _
      unfold stepData
      rw [hfn, hside]
      cases signal with
      | nil => exact absurd rfl hsig
      | cons c0 t => simp [sidebarTruthy]
  refine ⟨hgen, ?_⟩
  intro pre post args hpre hpost hargs
  obtain ⟨m, hm, hfn⟩ :=
    matchAllMacros_invocation name pre post args hname.1 hname.2.1 hpre hpost hargs
  exact hgen _ m hm hfn

/-- C4, witness: the text `see {{JSRef}}.` under the sample registry, which does not define
the name. -/
theorem sidebar_signal_witness :
    ∃ r, runMacros sampleRegistry ("see ".toList ++ invocation "JSRef".toList none ++ ".".toList)
        = Completion.normal r ∧
      r.data.hasSidebar = some (SidebarValue.tag "JSRef".toList) :=
  (sidebar_signal sampleRegistry "JSRef".toList "JSRef".toList
    (Or.inr (Or.inr (Or.inr ⟨rfl, rfl⟩)))).2 "see ".toList ".".toList none
    (by decide) (by decide) (by intro a h; exact absurd h (by simp))

/-- C4, counterexample: the text `{{CSSRef()}}` holds no match of `matchMacro`, the
parentheses needing a non-empty interior, and gets no sidebar signal. -/
theorem sidebar_signal_empty_parentheses :
    matchAllMacros "{{CSSRef()}}".toList = [] ∧
      runMacros sampleRegistry "{{CSSRef()}}".toList
        = Completion.normal ⟨"{{CSSRef()}}".toList, ⟨none⟩⟩ := by
  decide

/-- C5, the failing input: for every registry, `runMacros` returns on the text
`{{toString}}`, in which no placeholder has one of the four sidebar names, and the text gets
a sidebar value, the member `toString` that the object literal inherits, which is none of the
three tags. -/
theorem runMacros_inherited_sidebar (kumaMacros : Registry) :
    ∃ r, runMacros kumaMacros "{{toString}}".toList = Completion.normal r ∧
      r.data.hasSidebar = some (SidebarValue.inherited "toString".toList) := by
  have hm : matchAllMacros "{{toString}}".toList
      = [⟨"{{toString}}".toList, "toString".toList, none⟩] := by decide
  have hstep : ∃ c, stepContent kumaMacros "{{toString}}".toList
      ⟨"{{toString}}".toList, "toString".toList, none⟩ = Completion.normal c := by
    cases h : kumaMacros "toString".toList with
    | some f => exact stepContent_of_own_normal kumaMacros _ _ f h
    | none =>
      refine ⟨replace "{{toString}}".toList "{{toString}}".toList "[object Object]".toList, ?_⟩
      have hread : readMember kumaMacros "toString".toList
          = Member.builtin "toString".toList := by
        unfold readMember
        rw [h]
        rfl
      simp only [stepContent, macroResult, hread]
      rfl
  obtain ⟨c, hc⟩ := hstep
  refine ⟨⟨c, stepData { hasSidebar := none }
    ⟨"{{toString}}".toList, "toString".toList, none⟩⟩, ?_, ?_⟩
  · rw [runMacros_single kumaMacros _ _ hm, hc]
  · show (stepData { hasSidebar := none }
      ⟨"{{toString}}".toList, "toString".toList, none⟩).hasSidebar = _
    decide

end Gridsome
